import Mathlib

/-!
# Verification of the tvm-spec-example decompiler core

A shallow embedding of the decompilation pipeline of the repository
(opcode decoder, symbolic stack machine, lifter, IR passes), translated
from the TypeScript sources:

* `src/stackAnalysis.ts`   — symbolic stack, conditional-alignment guard
* `src/frontend/lifter.ts` — the lift loop with underflow retry
* `src/frontend/lifter/operands.ts` — stack-effect / control-flow analysis
  (the newer variant containing `analyzeControlFlow`, which the project
  treats as authoritative)
* `src/disasm.ts`          — opcode prefix matching
* `src/opt/inline.ts`      — the two inlining passes
* `src/middle/pipeline.ts` — the pass pipeline

External container types (ton3-core `Slice`, `Cell`, `Hashmap`) are out of
scope of the core; operand values are modelled directly in the tagged-variant
form of `core/ir.ts` (`convertOperandValue` becomes a mere re-tagging).
The instruction catalog is external data; instructions appearing in concrete
test programs are modelled as explicit `Instruction` values mirroring the
catalog entries used by the repository's tests.
-/

namespace TvmDecomp

/-! ## Instruction-set specification model (shapes used by the core) -/

/-- `bytecode.operands_range_check` of an instruction: accept the match only
when the `len` bits following the prefix, read as an unsigned integer,
lie in `[lo, hi]` (`from`/`to` in the catalog). -/
structure OperandsRangeCheck where
  lo : Nat
  hi : Nat
  len : Nat
deriving Repr, DecidableEq

/-- The part of `bytecode` the decoder uses: the prefix bit string and the
optional range check. Operand declarations are not needed for the claims
about prefix matching. -/
structure Bytecode where
  prefixBits : List Bool
  rangeCheck : Option OperandsRangeCheck
deriving Repr, DecidableEq

/-- A stack-entry shape of `value_flow` (`simple`, `const`, `array`,
`conditional`). `conditional`'s match arms are `(value, stack)` pairs; the
else arm is an optional entry list. -/
inductive StackEntry where
  | simple (name : String) (valueTypes : Option (List String))
  | constT (valueType : String)
  | arrayE (lengthVar : String) (arrayEntry : List StackEntry)
  | conditional (matchArms : List (Int × List StackEntry)) (elseArm : Option (List StackEntry))

/-- `value_flow`: input and output stack shapes. The source distinguishes a
missing `inputs` object from a missing `inputs.stack` list; both lead to the
same "Unconstrained stack input/output" error, so they are collapsed into a
single `Option` here. -/
structure ValueFlow where
  inputs : Option (List StackEntry)
  outputs : Option (List StackEntry)

/-- A `control_flow.branches` element. Only branches of type `"variable"`
are interpreted by `analyzeControlFlow`; all other types are skipped.
`saveC0` models `branch.save?.c0?.type`. -/
inductive BranchSpec where
  | varBranch (varName : String) (saveC0 : Option String)
  | otherBranch

structure ControlFlow where
  branches : List BranchSpec
  nobranch : Bool

structure DocInfo where
  category : String
deriving Repr, DecidableEq

/-- An instruction-catalog entry, with the fields the core reads. -/
structure Instruction where
  mnemonic : String
  doc : DocInfo
  bytecode : Bytecode
  valueFlow : Option ValueFlow
  controlFlow : ControlFlow

/-! ## IR data model (from `core/ir.ts`)

`IRValueRef.continuationMeta` embeds an `IRFunction`, and inline input
arguments embed whole primitives, so the IR types form one nested mutual
inductive family. -/

/-- `IRValueDef`: introduces a new value id (with optional static types). -/
structure IRValueDef where
  id : String
  types : Option (List String)
deriving Repr, DecidableEq

mutual

/-- `IRFunction` of `core/ir.ts`. `asmTail` entries are `(spec, operands)`
pairs; `kind`/`name` carry no information used by the core and are dropped.
`decompileError`/`disassembleError` hold the rendered error string
(`String(e)` in the source). -/
inductive IRFunction where
  | mk (args : List IRValueDef) (body : List IROpPrim) (result : List IRValueRef)
       (asmTail : List (Instruction × List (String × IROperandValue)))
       (tailSliceInfo : Option String)
       (decompileError : Option String) (disassembleError : Option String)

/-- `IRValueRef`: names an existing value; may carry the lifted continuation
of a pushed continuation value. -/
inductive IRValueRef where
  | mk (id : String) (types : Option (List String)) (continuationMeta : Option IRFunction)

/-- `IRInputArg`: a reference or an inline expression embedding a producer. -/
inductive IRInputArg where
  | ref (r : IRValueRef)
  | inline (op : IROpPrim)

/-- `IROperandValue`: tagged operand value. `bigint`, `slice` and `cell`
wrap external container types and are absorbed into `otherV` here. -/
inductive IROperandValue where
  | intV (n : Int)
  | boolV (b : Bool)
  | cont (f : IRFunction)
  | contMap (m : List (Int × IRFunction))
  | otherV

/-- `IROpPrim`: one IR primitive statement. -/
inductive IROpPrim where
  | mk (spec : Instruction) (mnemonic : String)
       (inputs : List (String × IRInputArg))
       (operands : List (String × IROperandValue))
       (outputs : List (String × IRValueDef))

end

def IRFunction.args : IRFunction → List IRValueDef
  | .mk a _ _ _ _ _ _ => a

def IRFunction.body : IRFunction → List IROpPrim
  | .mk _ b _ _ _ _ _ => b

def IRFunction.result : IRFunction → List IRValueRef
  | .mk _ _ r _ _ _ _ => r

def IRFunction.asmTail : IRFunction → List (Instruction × List (String × IROperandValue))
  | .mk _ _ _ t _ _ _ => t

def IRFunction.tailSliceInfo : IRFunction → Option String
  | .mk _ _ _ _ i _ _ => i

def IRFunction.decompileError : IRFunction → Option String
  | .mk _ _ _ _ _ d _ => d

def IRFunction.disassembleError : IRFunction → Option String
  | .mk _ _ _ _ _ _ d => d

def IRValueRef.id : IRValueRef → String
  | .mk i _ _ => i

def IRValueRef.types : IRValueRef → Option (List String)
  | .mk _ t _ => t

def IRValueRef.continuationMeta : IRValueRef → Option IRFunction
  | .mk _ _ m => m

def IROpPrim.spec : IROpPrim → Instruction
  | .mk s _ _ _ _ => s

def IROpPrim.mnemonic : IROpPrim → String
  | .mk _ m _ _ _ => m

def IROpPrim.inputs : IROpPrim → List (String × IRInputArg)
  | .mk _ _ i _ _ => i

def IROpPrim.operands : IROpPrim → List (String × IROperandValue)
  | .mk _ _ _ o _ => o

def IROpPrim.outputs : IROpPrim → List (String × IRValueDef)
  | .mk _ _ _ _ o => o

/-! ## Symbolic stack (from `stackAnalysis.ts`) -/

/-- An abstract stack value: a fresh textual identifier plus the optional
lifted continuation attached by push-continuation opcodes. -/
structure StackVariable where
  name : String
  continuationMeta : Option IRFunction

/-- Conditional-alignment guard state: `depth` counts how many entries above
the boundary are available for pop; `branches` holds the per-arm pending
variables. -/
structure GuardState where
  depth : Nat
  branches : List (List StackVariable)

/-- The symbolic stack: entries bottom-to-top (the top is the *last* list
element, as in the source's array), plus the optional guard. The source's
`static _varCounter` is process-global state; it is threaded explicitly as a
`Nat` through every operation that allocates a fresh variable. -/
structure Stack where
  entries : List StackVariable
  guard : Option GuardState

/-- Errors thrown by the stack machine and lifter internals.
`stackUnderflow` and `guardUnresolved` correspond to the dedicated error
classes; every plain `throw new Error(msg)` becomes `otherErr msg`. -/
inductive LiftErr where
  | stackUnderflow (depth : Nat)
  | guardUnresolved
  | otherErr (msg : String)
deriving Repr, DecidableEq

/-- Rendering used when an error is stored into the IR function's
diagnostic fields (`String(e)` in the source). -/
def LiftErr.render : LiftErr → String
  | .stackUnderflow d => "StackUnderflowError: Stack underflow occured (depth = " ++ toString d ++ ")"
  | .guardUnresolved =>
      "GuardUnresolvedError: Attempt to access stack below unresolved conditional guard"
  | .otherErr msg => "Error: " ++ msg

/-- The source's `Stack._varCounter` is a `static` class member: it is
process-global and keeps its value even when an operation throws. This is
modelled by an `EStateM` over the counter, whose `error` result preserves
the state, matching the static counter surviving exceptions. -/
abbrev CounterM (α : Type) := EStateM LiftErr Nat α

/-- Allocate `var{counter}` and advance the process-global counter
(the body of both `Stack.push` and `Stack.allocVar`). -/
def freshVar : CounterM StackVariable := do
  let c ← get
  set (c + 1)
  pure { name := "var" ++ toString c, continuationMeta := none }

/-- Allocate `n` fresh variables in order. -/
def freshVars : Nat → CounterM (List StackVariable)
  | 0 => pure []
  | n + 1 => do
      let v ← freshVar
      let vs ← freshVars n
      pure (v :: vs)

/-- `Stack.pop`: with an active guard, a pop is allowed only while the
guard's depth is positive (and then decrements it); then the top entry is
removed, raising `StackUnderflow(1)` on an empty stack. -/
def Stack.pop (s : Stack) : CounterM (StackVariable × Stack) :=
  match s.guard with
  | some g =>
      if g.depth ≤ 0 then throw LiftErr.guardUnresolved
      else
        match s.entries.getLast? with
        | none => throw (LiftErr.stackUnderflow 1)
        | some v =>
            pure (v, { entries := s.entries.dropLast,
                       guard := some { g with depth := g.depth - 1 } })
  | none =>
      match s.entries.getLast? with
      | none => throw (LiftErr.stackUnderflow 1)
      | some v => pure (v, { entries := s.entries.dropLast, guard := none })

/-- `Stack.push`: allocates a fresh `var{N}` onto the top and keeps the
guard boundary relative to the top by incrementing its depth. -/
def Stack.push (s : Stack) : CounterM (StackVariable × Stack) := do
  let v ← freshVar
  let g' := match s.guard with
    | some g => some { g with depth := g.depth + 1 }
    | none => none
  pure (v, { entries := s.entries ++ [v], guard := g' })

/-- `Stack.allocVar`: allocate a fresh variable name without pushing. -/
def Stack.allocVar : CounterM StackVariable := freshVar

/-- `Stack.insertArgs(start, length)`: create `arg{start}…arg{start+length-1}`,
reverse them, and prepend them at the bottom of the stack; returns the
reversed list (the source's return value). -/
def Stack.insertArgs (s : Stack) (start len : Nat) : List StackVariable × Stack :=
  let newArgs := ((List.range len).map
    (fun i => ({ name := "arg" ++ toString (start + i), continuationMeta := none } : StackVariable))).reverse
  (newArgs, { s with entries := newArgs ++ s.entries })

def Stack.hasGuard (s : Stack) : Bool := s.guard.isSome

/-- `Stack.ensureGuard`: create the guard, or keep the most restrictive
boundary and resize the arms (extending with empty arms or trimming). -/
def Stack.ensureGuard (s : Stack) (depthFromTop armsCount : Nat) : Stack :=
  match s.guard with
  | none =>
      { s with guard := some { depth := depthFromTop, branches := List.replicate armsCount [] } }
  | some g =>
      let depth' := min g.depth depthFromTop
      let branches' :=
        if g.branches.length < armsCount then
          g.branches ++ List.replicate (armsCount - g.branches.length) []
        else if g.branches.length > armsCount then
          g.branches.take armsCount
        else g.branches
      { s with guard := some { depth := depth', branches := branches' } }

/-- `Stack.appendToGuardArm`: append pending variables to one arm; errors if
the guard is missing or the arm index is out of range. -/
def Stack.appendToGuardArm (s : Stack) (armIndex : Nat) (vars : List StackVariable) :
    CounterM Stack :=
  match s.guard with
  | none => throw (LiftErr.otherErr "Guard is not initialized")
  | some g =>
      if h : armIndex < g.branches.length then
        pure { s with guard := some { g with
          branches := g.branches.set armIndex (g.branches[armIndex] ++ vars) } }
      else throw (LiftErr.otherErr "Guard arm index out of range")

/-- `Stack.tryFinalizeGuard`: finalize only when the guard exists, has at
least one arm, and all arms have the same length; merged variables are
spliced in just below the guard boundary (`insertIndex = max(0, len - depth)`,
which is what truncated `Nat` subtraction computes). -/
def Stack.tryFinalizeGuard (s : Stack) : CounterM (Option (List StackVariable) × Stack) :=
  match s.guard with
  | none => pure (none, s)
  | some g =>
      match g.branches.map List.length with
      | [] => pure (none, s)
      | first :: rest =>
          if rest.all (fun l => l = first) then
            if first = 0 then
              pure (some [], { s with guard := none })
            else do
              let insertIndex := s.entries.length - g.depth
              let merged ← freshVars first
              pure (some merged,
                { entries := s.entries.take insertIndex ++ merged ++ s.entries.drop insertIndex,
                  guard := none })
          else pure (none, s)

/-- `Stack.xchg(i, j)`: swap the entries at depths `i` and `j` from the top;
underflow when either index resolves below the bottom. Index arithmetic is
done in `Int` to mirror the source's negative-index check. -/
def Stack.xchg (s : Stack) (i j : Int) : CounterM Stack :=
  let n : Int := s.entries.length
  let i' : Int := n - 1 - i
  let j' : Int := n - 1 - j
  if i' < 0 ∨ j' < 0 then
    throw (LiftErr.stackUnderflow (max (-i') (-j')).toNat)
  else
    match s.entries.get? i'.toNat, s.entries.get? j'.toNat with
    | some vi, some vj =>
        pure { s with entries := (s.entries.set i'.toNat vj).set j'.toNat vi }
    | _, _ => throw (LiftErr.stackUnderflow 1)

/-- The four primitive stack operations (`BasicStackOperation`). -/
inductive BasicStackOperation where
  | xchgB (i j : Int)
  | blkpushB (i j : Int)
  | blkpopB (i j : Int)
  | reverseB (i j : Int)

/-- `blkpush(n, j)` body: duplicate the entry at depth `j`, `n` times; the
source recomputes the index against the grown stack on every iteration. -/
def Stack.blkpushLoop (s : Stack) (j : Int) : Nat → CounterM Stack
  | 0 => pure s
  | n + 1 => do
      let len : Int := s.entries.length
      let index : Int := len - 1 - j
      if index < 0 then
        throw (LiftErr.stackUnderflow (-index).toNat)
      else
        match s.entries.get? index.toNat with
        | some v => Stack.blkpushLoop { s with entries := s.entries ++ [v] } j n
        | none => throw (LiftErr.stackUnderflow 1)

/-- `blkpop(n, j)` body: `n` times, swap top with depth `j` then drop the
top (a raw array pop in the source, bypassing the guard bookkeeping —
`execStackInstruction` has already rejected an active guard). -/
def Stack.blkpopLoop (s : Stack) (j : Int) : Nat → CounterM Stack
  | 0 => pure s
  | n + 1 => do
      let s' ← s.xchg 0 j
      Stack.blkpopLoop { s' with entries := s'.entries.dropLast } j n

/-- `execBasicStackOperation` (from `stackAnalysis.ts`). -/
def Stack.execBasicStackOperation (s : Stack) : BasicStackOperation → CounterM Stack
  | .xchgB i j => s.xchg i j
  | .blkpushB i j => s.blkpushLoop j i.toNat
  | .blkpopB i j => s.blkpopLoop j i.toNat
  | .reverseB i j =>
      let length : Int := i
      let endIndex : Int := (s.entries.length : Int) - 1 - j
      let startIndex : Int := endIndex + 1 - length
      if startIndex < 0 ∨ endIndex < 0 then
        throw (LiftErr.stackUnderflow (max (-startIndex) (-endIndex)).toNat)
      else
        let st := startIndex.toNat
        let segment := (s.entries.drop st).take length.toNat
        pure { s with entries :=
          s.entries.take st ++ segment.reverse ++ s.entries.drop (st + length.toNat) }

/-- The composite operations (`StackOperation`), decomposed into the four
primitives exactly as `execStackOperation` does. -/
inductive StackOperation where
  | xchgO (i j : Int)
  | blkpushO (i j : Int)
  | blkpopO (i j : Int)
  | reverseO (i j : Int)
  | pushO (i : Int)
  | popO (i : Int)
  | xcpuO (i j : Int)
  | xc2puO (i j k : Int)
  | xchg2O (i j : Int)

def Stack.execStackOperation (s : Stack) : StackOperation → CounterM Stack
  | .xchgO i j => s.execBasicStackOperation (.xchgB i j)
  | .blkpushO i j => s.execBasicStackOperation (.blkpushB i j)
  | .blkpopO i j => s.execBasicStackOperation (.blkpopB i j)
  | .reverseO i j => s.execBasicStackOperation (.reverseB i j)
  | .pushO i => s.execBasicStackOperation (.blkpushB 1 i)
  | .popO i => s.execBasicStackOperation (.blkpopB 1 i)
  | .xcpuO i j => do
      let s ← s.execBasicStackOperation (.xchgB 0 i)
      s.execBasicStackOperation (.blkpushB 1 j)
  | .xc2puO i j k => do
      let s ← s.execBasicStackOperation (.xchgB 1 i)
      let s ← s.execBasicStackOperation (.xchgB 0 j)
      s.execBasicStackOperation (.blkpushB 1 k)
  | .xchg2O i j => do
      let s ← s.execBasicStackOperation (.xchgB 1 i)
      s.execBasicStackOperation (.xchgB 0 j)

/-! ## Operand maps

The decoder's `VarMap` maps operand names to heterogeneous values. The raw
container types being external, operand values are kept in the tagged form
of `core/ir.ts` from the start, and `convertOperands` becomes the identity
on entries. -/

abbrev VarMap := List (String × IROperandValue)

/-- Numeric operand access (`operands.i` on a stack instruction). The
decoder contract guarantees the operand is present and numeric for every
mnemonic that reads it. -/
def VarMap.num (m : VarMap) (k : String) : Int :=
  match m.lookup k with
  | some (.intV n) => n
  | _ => 0

/-- `convertOperands` of `frontend/lifter/operands.ts`: maps every operand
value through `convertOperandValue`; with operand values already in tagged
form this re-tags each entry identically. -/
def convertOperands (m : VarMap) : List (String × IROperandValue) := m.map (fun e => e)

/-- `Stack.execStackInstruction`: rejects any stack instruction while a
conditional guard is active, then dispatches on the mnemonic, decomposing
each composite shuffle into the primitive operations. -/
def Stack.execStackInstruction (s : Stack) (insn : Instruction) (operands : VarMap) :
    CounterM Stack := do
  if s.guard.isSome then
    throw (LiftErr.otherErr
      ("Stack operation '" ++ insn.mnemonic ++ "' is not allowed while conditional guard is active"))
  else
    let i := operands.num "i"
    let j := operands.num "j"
    let k := operands.num "k"
    match insn.mnemonic with
    | "NOP" => pure s
    | "PUSH" => s.execStackOperation (.pushO i)
    | "POP" => s.execStackOperation (.popO i)
    | "PUSH_LONG" => s.execStackOperation (.pushO i)
    | "POP_LONG" => s.execStackOperation (.popO i)
    | "XCPU" => s.execStackOperation (.xcpuO i j)
    | "XC2PU" => s.execStackOperation (.xc2puO i j k)
    | "XCHG_0I" => s.execStackOperation (.xchgO 0 i)
    | "XCHG_0I_LONG" => s.execStackOperation (.xchgO 0 i)
    | "XCHG_IJ" => s.execStackOperation (.xchgO i j)
    | "XCHG_1I" => s.execStackOperation (.xchgO 1 i)
    | "XCHG3" | "XCHG3_ALT" => do
        let s ← s.execStackOperation (.xchgO 2 i)
        let s ← s.execStackOperation (.xchgO 1 j)
        s.execStackOperation (.xchgO 0 k)
    | "XCHG2" => do
        let s ← s.execStackOperation (.xchgO 1 i)
        s.execStackOperation (.xchgO 0 j)
    | "ROT" => s.execStackOperation (.xchg2O 2 1)
    | "ROTREV" => s.execStackOperation (.xchg2O 2 2)
    | "SWAP2" => s.execStackOperation (.xchg2O 3 2)
    | "DROP2" => s.execStackOperation (.blkpopO 2 0)
    | "DUP2" => do
        let s ← s.execStackOperation (.pushO 1)
        s.execStackOperation (.pushO 1)
    | "OVER2" => do
        let s ← s.execStackOperation (.pushO 3)
        s.execStackOperation (.pushO 3)
    | "REVERSE" => s.execStackOperation (.reverseO i j)
    | "BLKDROP" => s.execStackOperation (.blkpopO i 0)
    | "BLKPUSH" => s.execStackOperation (.blkpushO i j)
    | "BLKSWAP" => do
        let s ← s.execStackOperation (.reverseO (i + 1) (j + 1))
        let s ← s.execStackOperation (.reverseO (j + 1) 0)
        s.execStackOperation (.reverseO (i + j + 2) 0)
    | "BLKDROP2" => do
        let s ← s.execStackOperation (.reverseO (i + j) 0)
        let s ← s.execStackOperation (.blkpopO i 0)
        s.execStackOperation (.reverseO j 0)
    | "TUCK" => do
        let s ← s.execStackOperation (.xchgO 0 1)
        s.execStackOperation (.pushO 1)
    | "DEPTH" => do
        let (_, s) ← s.push
        pure s
    | "CHKDEPTH" => throw (LiftErr.otherErr
        "Dynamic stack operation 'CHKDEPTH' is not supported in analysis")
    | "PICK" => throw (LiftErr.otherErr
        "Dynamic stack operation 'PICK' is not supported in analysis")
    | "ROLLX" | "-ROLLX" => throw (LiftErr.otherErr
        "Dynamic stack operation 'ROLLX' is not supported in analysis")
    | "BLKSWX" | "REVX" => throw (LiftErr.otherErr
        "Dynamic stack operation 'BLKSWX/REVX' is not supported in analysis")
    | "DROPX" => throw (LiftErr.otherErr
        "Dynamic stack operation 'DROPX' is not supported in analysis")
    | "XCHGX" => throw (LiftErr.otherErr
        "Dynamic stack operation 'XCHGX' is not supported in analysis")
    | "ONLYTOPX" => throw (LiftErr.otherErr
        "Dynamic stack operation 'ONLYTOPX' is not supported in analysis")
    | "ONLYX" => throw (LiftErr.otherErr
        "Dynamic stack operation 'ONLYX' is not supported in analysis")
    | "PUXC" => do
        let s ← s.execStackOperation (.pushO i)
        let s ← s.execStackOperation (.xchgO 0 1)
        s.execStackOperation (.xchgO 0 j)
    | "PUSH2" => do
        let s ← s.execStackOperation (.pushO i)
        s.execStackOperation (.pushO (j + 1))
    | "XCPUXC" => do
        let s ← s.execStackOperation (.xchgO 1 i)
        let s ← s.execStackOperation (.pushO j)
        let s ← s.execStackOperation (.xchgO 0 1)
        s.execStackOperation (.xchgO 0 (k - 1))
    | "XCPU2" => do
        let s ← s.execStackOperation (.xchgO 0 i)
        let s ← s.execStackOperation (.pushO j)
        s.execStackOperation (.pushO (k + 1))
    | "PUXC2" => do
        let s ← s.execStackOperation (.pushO i)
        let s ← s.execStackOperation (.xchgO 0 2)
        let s ← s.execStackOperation (.xchgO 1 j)
        s.execStackOperation (.xchgO 0 k)
    | "PUXCPU" => do
        let s ← s.execStackOperation (.pushO i)
        let s ← s.execStackOperation (.xchgO 0 1)
        let s ← s.execStackOperation (.xchgO 0 (j - 1))
        s.execStackOperation (.pushO k)
    | "PU2XC" => do
        let s ← s.execStackOperation (.pushO i)
        let s ← s.execStackOperation (.xchgO 0 1)
        let s ← s.execStackOperation (.pushO j)
        let s ← s.execStackOperation (.xchgO 0 1)
        s.execStackOperation (.xchgO 0 (k - 1))
    | "PUSH3" => do
        let s ← s.execStackOperation (.pushO i)
        let s ← s.execStackOperation (.pushO (j + 1))
        s.execStackOperation (.pushO (k + 2))
    | m => throw (LiftErr.otherErr ("Unknown stack insn " ++ m))

/-! ## Stack-effect analysis (from `frontend/lifter/operands.ts`, the newer
variant with `analyzeControlFlow`, which the project treats as
authoritative) -/

abbrev IRInputs := List (String × IRInputArg)
abbrev IROutputs := List (String × IRValueDef)

/-- `isStackOp`: stack-category instructions are executed as shuffles. -/
def isStackOp (spec : Instruction) : Bool :=
  spec.doc.category = "stack_basic" ∨ spec.doc.category = "stack_complex"

/-- Read the `length_var` operand of an array-shaped entry; dynamic
(stack-sourced) lengths are rejected. -/
def arrayCount (operands : VarMap) (lenVar mnemonic : String) : CounterM Int :=
  match operands.lookup lenVar with
  | some (.intV n) => pure n
  | _ => throw (LiftErr.otherErr
      ("not supported dynamic array length '" ++ lenVar ++ "' while parsing " ++ mnemonic))

/-- Inner loop of an array-shaped stack input: one pass over the reversed
`array_entry` list, threading the running `idx`. -/
def collectArrayEntriesRev (mnemonic : String) :
    List StackEntry → Nat → IRInputs → Stack → CounterM (IRInputs × Nat × Stack)
  | [], idx, acc, s => pure (acc, idx, s)
  | ent :: rest, idx, acc, s => do
      match ent with
      | .simple name tys => do
          let (v, s) ← s.pop
          collectArrayEntriesRev mnemonic rest (idx + 1)
            (acc ++ [(name ++ toString idx, .ref (.mk v.name tys none))]) s
      | .constT vt => do
          let (v, s) ← s.pop
          collectArrayEntriesRev mnemonic rest (idx + 1)
            (acc ++ [("const_in_" ++ toString idx, .ref (.mk v.name (some [vt]) none))]) s
      | .conditional _ _ => throw (LiftErr.otherErr
          ("not supported nested 'conditional' inside array input while parsing " ++ mnemonic))
      | .arrayE _ _ => throw (LiftErr.otherErr
          ("not supported nested 'array' inside array input while parsing " ++ mnemonic))

/-- `count` iterations of the reversed `array_entry` loop. -/
def collectArrayLoop (mnemonic : String) (entsRev : List StackEntry) :
    Nat → Nat → IRInputs → Stack → CounterM (IRInputs × Nat × Stack)
  | 0, idx, acc, s => pure (acc, idx, s)
  | n + 1, idx, acc, s => do
      let (acc, idx, s) ← collectArrayEntriesRev mnemonic entsRev idx acc s
      collectArrayLoop mnemonic entsRev n idx acc s

/-- Loop of `collectStackInputs` over the reversed spec input list (inputs
are declared deepest→top; pops happen top-first). -/
def collectInputsRev (mnemonic : String) (operands : VarMap) :
    List StackEntry → IRInputs → Stack → CounterM (IRInputs × Stack)
  | [], acc, s => pure (acc, s)
  | ent :: rest, acc, s => do
      match ent with
      | .simple name tys => do
          let (v, s) ← s.pop
          collectInputsRev mnemonic operands rest
            (acc ++ [(name, .ref (.mk v.name tys v.continuationMeta))]) s
      | .arrayE lenVar entries => do
          let count ← arrayCount operands lenVar mnemonic
          let (acc, _, s) ← collectArrayLoop mnemonic entries.reverse count.toNat 0 acc s
          collectInputsRev mnemonic operands rest acc s
      | .constT _ => throw (LiftErr.otherErr
          ("not supported stack input 'const' while parsing " ++ mnemonic))
      | .conditional _ _ => throw (LiftErr.otherErr
          ("not supported stack input 'conditional' while parsing " ++ mnemonic))

/-- `collectStackInputs`: consume the declared stack inputs. -/
def collectStackInputs (spec : Instruction) (operands : VarMap) (s : Stack) :
    CounterM (IRInputs × Stack) :=
  match spec.valueFlow with
  | none => throw (LiftErr.otherErr ("Unconstrained stack input while parsing " ++ spec.mnemonic))
  | some vf =>
      match vf.inputs with
      | none => throw (LiftErr.otherErr
          ("Unconstrained stack input while parsing " ++ spec.mnemonic))
      | some entries => collectInputsRev spec.mnemonic operands entries.reverse [] s

/-- Resolve a branch's continuation target: from the operand map when
present, otherwise from the `continuationMeta` of the named stack input.
(Branch operands are continuations whenever present; a present non-`cont`
operand value would crash the source with a `TypeError` and is modelled as
an error.) -/
def resolveBranchTarget (operands : VarMap) (stackInputs : IRInputs) (varName : String) :
    CounterM IRFunction :=
  match operands.lookup varName with
  | some (.cont f) => pure f
  | some _ => throw (LiftErr.otherErr "branch operand is not a continuation")
  | none =>
      match stackInputs.find? (fun i => i.1 = varName) with
      | none => throw (LiftErr.otherErr "no such input")
      | some (_, .ref r) =>
          match r.continuationMeta with
          | some f => pure f
          | none => throw (LiftErr.otherErr "continuation has no meta!")
      | some (_, .inline _) => throw (LiftErr.otherErr "continuation has no meta!")

/-- Peek one id per formal parameter of the branch target: pops happen on a
copy of the stack, in reverse order of the target's `args`. -/
def popBranchArgs (varName : String) :
    List IRValueDef → IRInputs → Stack → CounterM IRInputs
  | [], acc, _ => pure acc
  | arg :: rest, acc, sc => do
      let (v, sc) ← sc.pop
      popBranchArgs varName rest (acc ++ [(varName ++ "_" ++ arg.id, .ref (.mk v.name none none))]) sc

/-- State of the `analyzeControlFlow` branch loop. -/
structure AcfState where
  inputs : IRInputs
  maxRets : Int
  maxArgs : Nat
  hasJumps : Bool

/-- The branch loop of `analyzeControlFlow`. -/
def acfBranches (operands : VarMap) (stack : Stack) (stackInputs : IRInputs) :
    List BranchSpec → AcfState → CounterM AcfState
  | [], st => pure st
  | .otherBranch :: rest, st => acfBranches operands stack stackInputs rest st
  | .varBranch varName saveC0 :: rest, st => do
      let target ← resolveBranchTarget operands stackInputs varName
      let newInputs ← popBranchArgs varName target.args.reverse [] stack
      if st.maxRets ≠ -1 ∧
          (st.maxArgs : Int) - st.maxRets ≠
            (target.args.length : Int) - target.result.length then
        throw (LiftErr.otherErr
          ("bad branch " ++ varName ++ " with " ++ toString target.args.length ++
            " args and " ++ toString target.result.length))
      else
        let st' :=
          if target.args.length > st.maxArgs then
            { st with inputs := st.inputs ++ newInputs,
                      maxArgs := target.args.length,
                      maxRets := target.result.length }
          else { st with inputs := st.inputs ++ newInputs }
        let st'' := if saveC0 ≠ some "cc" then { st' with hasJumps := true } else st'
        acfBranches operands stack stackInputs rest st''

/-- Pop `n` entries from the real stack (discarding the values). -/
def Stack.popN (s : Stack) : Nat → CounterM Stack
  | 0 => pure s
  | n + 1 => do
      let (_, s) ← s.pop
      s.popN n

/-- Push `n` fresh outputs `out_0…out_{n-1}`. -/
def pushOuts (s : Stack) (n : Nat) : CounterM (IROutputs × Stack) := do
  let rec go (s : Stack) (i : Nat) (acc : IROutputs) : Nat → CounterM (IROutputs × Stack)
    | 0 => pure (acc, s)
    | k + 1 => do
        let (v, s) ← s.push
        go s (i + 1) (acc ++ [("out_" ++ toString i, (⟨v.name, none⟩ : IRValueDef))]) k
  go s 0 [] n

/-- `analyzeControlFlow`: resolve each `variable` branch target, peek its
formal parameters from a copy of the stack, enforce the consistency checks,
then pop `maxArgs` from the real stack and push `maxRets` fresh outputs. -/
def analyzeControlFlow (spec : Instruction) (operands : VarMap) (stack : Stack)
    (stackInputs : IRInputs) : CounterM (IRInputs × IROutputs × Stack) := do
  let st ← acfBranches operands stack stackInputs spec.controlFlow.branches
    { inputs := [], maxRets := -1, maxArgs := 0, hasJumps := false }
  let maxRets : Nat := if st.hasJumps ∨ st.maxRets = -1 then 0 else st.maxRets.toNat
  if spec.controlFlow.nobranch ∧ st.maxArgs ≠ maxRets ∧ ¬st.hasJumps then
    throw (LiftErr.otherErr
      ("for nobranch, args=" ++ toString st.maxArgs ++ " must be same as rets=" ++
        toString maxRets))
  else do
    let stack ← stack.popN st.maxArgs
    let (outputs, stack) ← pushOuts stack maxRets
    pure (st.inputs, outputs, stack)

/-- State of the `allocateStackOutputs` loop. -/
structure AllocState where
  stackOutputs : IROutputs
  constCounter : Nat
  pushedThisInsn : Nat
  condOutCounter : Nat
  stack : Stack

/-- Attach the lifted continuation operand `s` to a value pushed by
`PUSHCONT`/`PUSHCONT_SHORT` (mutating the just-pushed stack entry). -/
def attachPushcontMeta (spec : Instruction) (operands : VarMap) (v : StackVariable)
    (stack : Stack) : StackVariable × Stack :=
  if spec.mnemonic = "PUSHCONT_SHORT" ∨ spec.mnemonic = "PUSHCONT" then
    match operands.lookup "s" with
    | some (.cont f) =>
        let v' := { v with continuationMeta := some f }
        (v', { stack with entries := stack.entries.dropLast ++ [v'] })
    | _ => (v, stack)
  else (v, stack)

/-- Inner loop of an array-shaped stack output (spec order, not reversed);
the `const` arm does not advance `idx`, as in the source. -/
def allocArrayEntries (mnemonic : String) :
    List StackEntry → Nat → AllocState → CounterM (AllocState × Nat)
  | [], idx, st => pure (st, idx)
  | ent :: rest, idx, st => do
      match ent with
      | .simple name tys => do
          let (v, stack) ← st.stack.push
          allocArrayEntries mnemonic rest (idx + 1)
            { st with stack := stack,
                      pushedThisInsn := st.pushedThisInsn + 1,
                      stackOutputs := st.stackOutputs ++ [(name ++ toString idx, ⟨v.name, tys⟩)] }
      | .constT vt => do
          let (v, stack) ← st.stack.push
          allocArrayEntries mnemonic rest idx
            { st with stack := stack,
                      pushedThisInsn := st.pushedThisInsn + 1,
                      constCounter := st.constCounter + 1,
                      stackOutputs := st.stackOutputs ++
                        [("const" ++ toString st.constCounter, ⟨v.name, some [vt]⟩)] }
      | .conditional _ _ => throw (LiftErr.otherErr
          ("not supported nested 'conditional' inside array output while parsing " ++ mnemonic))
      | .arrayE _ _ => throw (LiftErr.otherErr
          ("not supported nested 'array' inside array output while parsing " ++ mnemonic))

def allocArrayLoop (mnemonic : String) (ents : List StackEntry) :
    Nat → Nat → AllocState → CounterM (AllocState × Nat)
  | 0, idx, st => pure (st, idx)
  | n + 1, idx, st => do
      let (st, idx) ← allocArrayEntries mnemonic ents idx st
      allocArrayLoop mnemonic ents n idx st

/-- Allocate the pending variables of one conditional arm (`allocVar` per
`simple`/`const` entry). -/
def allocArmVars (mnemonic : String) :
    List StackEntry → List StackVariable → CounterM (List StackVariable)
  | [], acc => pure acc
  | ent :: rest, acc => do
      match ent with
      | .simple _ _ => do
          let v ← Stack.allocVar
          allocArmVars mnemonic rest (acc ++ [v])
      | .constT _ => do
          let v ← Stack.allocVar
          allocArmVars mnemonic rest (acc ++ [v])
      | .arrayE _ _ => throw (LiftErr.otherErr
          ("unsupported conditional branch entry 'array' in " ++ mnemonic))
      | .conditional _ _ => throw (LiftErr.otherErr
          ("unsupported conditional branch entry 'conditional' in " ++ mnemonic))

/-- `arms.forEach((arm, idx) => …appendToGuardArm(idx, newVars))`. -/
def appendArms (mnemonic : String) :
    List (List StackEntry) → Nat → Stack → CounterM Stack
  | [], _, stack => pure stack
  | arm :: rest, idx, stack => do
      let newVars ← allocArmVars mnemonic arm []
      let stack ← stack.appendToGuardArm idx newVars
      appendArms mnemonic rest (idx + 1) stack

/-- Expose a batch of merged guard variables as `__cond{N}` outputs. -/
def condOutputs (merged : List StackVariable) (start : Nat) : IROutputs :=
  merged.enum.map (fun p => ("__cond" ++ toString (start + p.1), (⟨p.2.name, some []⟩ : IRValueDef)))

/-- The main loop of `allocateStackOutputs` over the spec output list. -/
def allocOutputsLoop (spec : Instruction) (operands : VarMap) :
    List StackEntry → AllocState → CounterM AllocState
  | [], st => pure st
  | output :: rest, st => do
      match output with
      | .simple name tys => do
          let (v, stack) ← st.stack.push
          let (v, stack) := attachPushcontMeta spec operands v stack
          allocOutputsLoop spec operands rest
            { st with stack := stack,
                      pushedThisInsn := st.pushedThisInsn + 1,
                      stackOutputs := st.stackOutputs ++ [(name, ⟨v.name, tys⟩)] }
      | .constT vt => do
          let (v, stack) ← st.stack.push
          allocOutputsLoop spec operands rest
            { st with stack := stack,
                      pushedThisInsn := st.pushedThisInsn + 1,
                      constCounter := st.constCounter + 1,
                      stackOutputs := st.stackOutputs ++
                        [("const" ++ toString st.constCounter, ⟨v.name, some [vt]⟩)] }
      | .arrayE lenVar entries => do
          let count ← arrayCount operands lenVar spec.mnemonic
          let (st, _) ← allocArrayLoop spec.mnemonic entries count.toNat 0 st
          allocOutputsLoop spec operands rest st
      | .conditional matchArms elseArm => do
          let arms := matchArms.map (fun a => a.2) ++ elseArm.toList
          let stack := st.stack.ensureGuard st.pushedThisInsn arms.length
          let stack ← appendArms spec.mnemonic arms 0 stack
          let (mergedNow, stack) ← stack.tryFinalizeGuard
          match mergedNow with
          | some merged =>
              if merged.length ≠ 0 then
                allocOutputsLoop spec operands rest
                  { st with stack := stack,
                            condOutCounter := st.condOutCounter + merged.length,
                            stackOutputs := st.stackOutputs ++
                              condOutputs merged st.condOutCounter }
              else
                allocOutputsLoop spec operands rest { st with stack := stack }
          | none => allocOutputsLoop spec operands rest { st with stack := stack }

/-- `allocateStackOutputs`: allocate the declared stack outputs (possibly
creating / finalizing a conditional guard), then give a second finalization
chance collecting any merged variables as further `__cond{N}` outputs. -/
def allocateStackOutputs (spec : Instruction) (operands : VarMap) (stack : Stack) :
    CounterM (IROutputs × Stack) :=
  match spec.valueFlow with
  | none => throw (LiftErr.otherErr ("Unconstrained stack output while parsing " ++ spec.mnemonic))
  | some vf =>
      match vf.outputs with
      | none => throw (LiftErr.otherErr
          ("Unconstrained stack output while parsing " ++ spec.mnemonic))
      | some entries => do
          let st ← allocOutputsLoop spec operands entries
            { stackOutputs := [], constCounter := 0, pushedThisInsn := 0,
              condOutCounter := 0, stack := stack }
          let (merged, stack) ← st.stack.tryFinalizeGuard
          match merged with
          | some m =>
              if m.length ≠ 0 then
                pure (st.stackOutputs ++ condOutputs m st.condOutCounter, stack)
              else pure (st.stackOutputs, stack)
          | none => pure (st.stackOutputs, stack)

/-- `buildOp`: dispatch a stack-category instruction to the shuffle
interpreter (emitting no primitive), otherwise run input consumption,
control-flow analysis and output allocation, and emit the IR primitive. -/
def buildOp (spec : Instruction) (operands : VarMap) (stack : Stack) :
    CounterM (Option IROpPrim × Stack) := do
  if isStackOp spec then do
    let stack ← stack.execStackInstruction spec operands
    pure (none, stack)
  else
    match spec.valueFlow with
    | none => throw (LiftErr.otherErr ("instruction is missing value flow: " ++ spec.mnemonic))
    | some vf =>
        if vf.inputs.isNone ∨ vf.outputs.isNone then
          throw (LiftErr.otherErr ("instruction is missing value flow: " ++ spec.mnemonic))
        else do
          let (inputs, stack) ← collectStackInputs spec operands stack
          let (cfInputs, cfOutputs, stack) ← analyzeControlFlow spec operands stack inputs
          let (outputs, stack) ← allocateStackOutputs spec operands stack
          let (_, stack) ← stack.tryFinalizeGuard
          pure (some (.mk spec spec.mnemonic (inputs ++ cfInputs) (convertOperands operands)
            (outputs ++ cfOutputs)), stack)

/-! ## The lift loop (from `frontend/lifter.ts`)

The decoder and the recursive lifting of continuation operands live outside
the loop body modelled here: `lift` is given the already-decoded instruction
stream (with continuation operands already in lifted form), which is the
state of affairs when the per-instruction loop body runs. -/

/-- Accumulated state of the lift loop. -/
structure LoopState where
  stack : Stack
  args : List StackVariable
  body : List IROpPrim
  asmTail : List (Instruction × List (String × IROperandValue))
  decompileError : Option LiftErr

/-- The retry loop (`for (let t = 0; ; t++)`): run `buildOp` on a snapshot
of the stack; on success adopt the snapshot; on `StackUnderflow(d)` with
`t < 10`, prepend `d` fresh args to the bottom of the *real* stack (and to
the front of `args`) and retry; any other failure (or exceeding the cap) is
recorded as the permanent decompile error. The allocation counter is *not*
rolled back on a failed attempt (the source counter is static). -/
def applyWithRetry (spec : Instruction) (operands : VarMap) (st : LoopState) (t : Nat) :
    Nat → CounterM LoopState
  | 0 => pure { st with decompileError := some (LiftErr.otherErr "retry fuel exhausted") }
  | fuel + 1 => fun counter =>
      match buildOp spec operands st.stack counter with
      | .ok (op?, stack2) counter' =>
          EStateM.Result.ok
            { st with stack := stack2,
                      body := match op? with
                        | some op => st.body ++ [op]
                        | none => st.body }
            counter'
      | .error e counter' =>
          match e with
          | .stackUnderflow d =>
              if t < 10 then
                let (newArgs, stack') := st.stack.insertArgs st.args.length d
                applyWithRetry spec operands
                  { st with stack := stack', args := newArgs ++ st.args } (t + 1) fuel counter'
              else EStateM.Result.ok { st with decompileError := some e } counter'
          | _ => EStateM.Result.ok { st with decompileError := some e } counter'

/-- One iteration of the main loop for an already-decoded instruction:
symbolically apply it unless a decompile error is already set, then append
it to `asmTail` when an error is (now) set. -/
def liftStep (st : LoopState) (insn : Instruction × VarMap) : CounterM LoopState := do
  let st ←
    if st.decompileError = none then
      -- 11 is one more than the largest possible `t`, so the fuel never runs out
      applyWithRetry insn.1 insn.2 st 0 12
    else pure st
  if st.decompileError ≠ none then
    pure { st with asmTail := st.asmTail ++ [(insn.1, convertOperands insn.2)] }
  else pure st

def liftLoop : List (Instruction × VarMap) → LoopState → CounterM LoopState
  | [], st => pure st
  | insn :: rest, st => do
      let st ← liftStep st insn
      liftLoop rest st

/-- `lift`: run the loop over the decoded instruction stream and package the
IR function; `result` is the remaining stack bottom-to-top. (The modelled
stream has no undecodable tail, so `disassembleError`/`tailSliceInfo` are
always `none` here.) -/
def lift (insns : List (Instruction × VarMap)) : CounterM IRFunction := do
  let st ← liftLoop insns
    { stack := { entries := [], guard := none }, args := [], body := [],
      asmTail := [], decompileError := none }
  pure (.mk (st.args.map (fun a => ⟨a.name, none⟩))
    st.body
    (st.stack.entries.map (fun v => .mk v.name none none))
    st.asmTail
    none
    (st.decompileError.map LiftErr.render)
    none)

/-! ## Opcode prefix matching (from `disasm.ts`, `OpcodeParser.loadPrefix`)

A slice's bit payload is a `List Bool`. The external slice contract: peeking
or reading `n` bits fails when fewer than `n` bits remain (ton3-core throws);
this surfaces as `bitAccess`, distinct from the decoder's own
"Prefix not found" error. The prefix table is keyed on the bit-string form
of each catalog prefix (`prefixToBin`); prefixes are modelled directly in
bit form. A JS `Map` built from a list keeps the *last* entry for a
duplicated key, hence the reversed lookup. -/

inductive DecodeErr where
  | prefixNotFound
  | bitAccess
deriving Repr, DecidableEq

/-- Peek `n` bits without advancing; fails when fewer than `n` remain. -/
def peekBits (bits : List Bool) (n : Nat) : Option (List Bool) :=
  if n ≤ bits.length then some (bits.take n) else none

/-- `loadUint` value of a bit string (big-endian). -/
def natOfBits (l : List Bool) : Nat :=
  l.foldl (fun a b => 2 * a + (if b then 1 else 0)) 0

/-- Prefix-table lookup (last duplicate wins, as in a JS `Map`). -/
def tableLookup (instrs : List Instruction) (key : List Bool) : Option Instruction :=
  instrs.reverse.find? (fun i => i.bytecode.prefixBits = key)

/-- The longest known prefix length (`getLongestPrefixLength`). -/
def maxPfxLen (instrs : List Instruction) : Nat :=
  (instrs.map (fun i => i.bytecode.prefixBits.length)).foldl max 0

/-- One candidate length of `loadPrefix`: peek `n` bits, look them up; on a
hit with a range check, read the `len` bits after the prefix as an unsigned
integer (from a fresh slice over the same bits, as the source does with a
rebuilt `Builder` slice) and accept only within `[lo, hi]`. The `for` loop
bound `bits <= maxLen` becomes the structural `fuel` argument counting the
candidate lengths still to try (`maxLen + 1 - n`); it runs out exactly when
`n` exceeds `maxLen`. -/
def loadPfxGo (instrs : List Instruction) (bits : List Bool) :
    Nat → Nat → Except DecodeErr (Instruction × List Bool)
  | _, 0 => throw DecodeErr.prefixNotFound
  | n, fuel + 1 =>
      match peekBits bits n with
      | none => throw DecodeErr.bitAccess
      | some key =>
          match tableLookup instrs key with
          | none => loadPfxGo instrs bits (n + 1) fuel
          | some instr =>
              match instr.bytecode.rangeCheck with
              | none => pure (instr, bits.drop n)
              | some rc =>
                  if n + rc.len ≤ bits.length then
                    if natOfBits ((bits.drop n).take rc.len) < rc.lo ∨
                        natOfBits ((bits.drop n).take rc.len) > rc.hi then
                      loadPfxGo instrs bits (n + 1) fuel
                    else pure (instr, bits.drop n)
                  else throw DecodeErr.bitAccess

/-- `loadPrefix`: iterate candidate lengths from 1 up to the longest known
prefix length; the first accepting length wins and its bits are consumed. -/
def loadPfx (instrs : List Instruction) (bits : List Bool) :
    Except DecodeErr (Instruction × List Bool) :=
  loadPfxGo instrs bits 1 (maxPfxLen instrs)

/-! ## Inlining passes (from `opt/inline.ts`)

The source mutates statements in place; the translation rebuilds the lists.
The inline expression wraps the producer statement as recorded when the
producer map was built (identical to the live object whenever the
producer's own inputs are not also rewritten — `const_int` / `const_data`
producers consume no stack inputs). -/

def IRFunction.withBody (fn : IRFunction) (b : List IROpPrim) : IRFunction :=
  match fn with
  | .mk a _ r t i d1 d2 => .mk a b r t i d1 d2

def IROpPrim.withInputs (st : IROpPrim) (ins : IRInputs) : IROpPrim :=
  match st with
  | .mk s m _ o out => .mk s m ins o out

def isConstCategory (cat : String) : Bool :=
  cat = "const_int" ∨ cat = "const_data"

/-- An entry of the `producedBy` map: a single-output statement of const
category, keyed by its output id. -/
structure ProducerEntry where
  outId : String
  stmtIndex : Nat
  stmt : IROpPrim

/-- The `producedBy` map entry test: a single-output statement of const
category. -/
def producerAt (st : IROpPrim) (i : Nat) : Option ProducerEntry :=
  match st.outputs with
  | [o] =>
      if isConstCategory st.spec.doc.category then some ⟨o.2.id, i, st⟩ else none
  | _ => none

def constProducersFrom : List IROpPrim → Nat → List ProducerEntry
  | [], _ => []
  | st :: rest, i =>
      match producerAt st i with
      | some p => p :: constProducersFrom rest (i + 1)
      | none => constProducersFrom rest (i + 1)

/-- All `producedBy.set` insertion events, in body order. -/
def constProducers (body : List IROpPrim) : List ProducerEntry :=
  constProducersFrom body 0

/-- `producedBy.set(id, {stmtIndex: i, stmt: st})`: JS `Map` insertion — an
existing key keeps its position but takes the new value, a new key is
appended. -/
def mapSet (m : List ProducerEntry) (p : ProducerEntry) : List ProducerEntry :=
  if m.any (fun q => q.outId = p.outId) then
    m.map (fun q => if q.outId = p.outId then p else q)
  else m ++ [p]

/-- The `producedBy` map of `inlineConsts` in `forEach` iteration order
(JS `Map`: first-insertion key order, last-set value). -/
def producedBy (body : List IROpPrim) : List ProducerEntry :=
  (constProducers body).foldl mapSet []

/-- A use site of a value id: the consuming statement's index and the name
of the consuming input. -/
structure UseSite where
  stmtIndex : Nat
  inputName : String

/-- The use sites of `id` within one statement (reference inputs only;
inline arguments are skipped). -/
def stmtSites (st : IROpPrim) (id : String) (i : Nat) : List UseSite :=
  st.inputs.filterMap (fun inp =>
    match inp.2 with
    | .ref r => if r.id = id then some ⟨i, inp.1⟩ else none
    | .inline _ => none)

def collectSitesFrom : List IROpPrim → String → Nat → List UseSite
  | [], _, _ => []
  | st :: rest, id, i => stmtSites st id i ++ collectSitesFrom rest id (i + 1)

/-- All use sites of `id` in a body, in scan order. -/
def collectSites (body : List IROpPrim) (id : String) : List UseSite :=
  collectSitesFrom body id 0

/-- Replace the value of the first input with the given name
(`inputs.find(i => i.name === n)` followed by in-place assignment). -/
def replaceFirstNamed (inputs : IRInputs) (n : String) (a : IRInputArg) : IRInputs :=
  match inputs with
  | [] => []
  | (m, v) :: rest =>
      if m = n then (m, a) :: rest else (m, v) :: replaceFirstNamed rest n a

/-- In-place modification of the statement at an index. -/
def modifyAt (body : List IROpPrim) (i : Nat) (f : IROpPrim → IROpPrim) : List IROpPrim :=
  match body, i with
  | [], _ => []
  | x :: xs, 0 => f x :: xs
  | x :: xs, n + 1 => x :: modifyAt xs n f

/-- Apply one recorded use site: wrap the consumer's named input into an
inline expression. -/
def applySite (b : List IROpPrim) (site : UseSite) (a : IRInputArg) : List IROpPrim :=
  modifyAt b site.stmtIndex (fun st => st.withInputs (replaceFirstNamed st.inputs site.inputName a))

/-- `for (i…) if (!toRemove.has(i)) newBody.push(body[i])`. -/
def dropIndexed : List IROpPrim → List Nat → Nat → List IROpPrim
  | [], _, _ => []
  | st :: rest, rm, i =>
      if rm.contains i then dropIndexed rest rm (i + 1)
      else st :: dropIndexed rest rm (i + 1)

/-- `inlineConsts`: for every single-output const-category producer with at
least one use site, wrap each use site into an inline expression carrying
the producer, and delete the producer when its output id is not referenced
by `result`. Producers with no use sites are skipped entirely
(`if (sites.length === 0) return`). -/
def inlineConsts (fn : IRFunction) : IRFunction :=
  let body := fn.body
  let producers := producedBy body
  let resultIds := fn.result.map IRValueRef.id
  let body2 := producers.foldl (fun b p =>
      (collectSites body p.outId).foldl
        (fun b site => applySite b site (.inline p.stmt)) b)
    body
  let toRemove := producers.filterMap (fun p =>
      if (collectSites body p.outId).length ≠ 0 ∧ ¬ resultIds.contains p.outId then
        some p.stmtIndex
      else none)
  fn.withBody (dropIndexed body2 toRemove 0)

/-- Total number of reference uses of `id` in a body (`countUses`). -/
def countUses (b : List IROpPrim) (id : String) : Nat :=
  (b.map (fun st =>
    (st.inputs.filter (fun inp =>
      match inp.2 with
      | .ref r => r.id = id
      | .inline _ => false)).length)).sum

/-- The name of the first reference input of `st` whose id is `id`. -/
def firstRefName (st : IROpPrim) (id : String) : Option String :=
  st.inputs.findSome? (fun inp =>
    match inp.2 with
    | .ref r => if r.id = id then some inp.1 else none
    | .inline _ => none)

/-- The condition and action of one scan position of `inlinePrevSingleUse`:
`prev = b[i-1]` has exactly one output, that output is not in `result`, is
used exactly once in the whole body, and that use is an input of
`curr = b[i]`; then the input is wrapped and `prev` is spliced out. -/
def scanAt (b : List IROpPrim) (rids : List String) (i : Nat) : Option (List IROpPrim) :=
  match b.get? (i - 1), b.get? i with
  | some prev, some curr =>
      match prev.outputs with
      | [o] =>
          let id := o.2.id
          if rids.contains id then none
          else if countUses b id ≠ 1 then none
          else
            match firstRefName curr id with
            | none => none
            | some n =>
                some (b.take (i - 1) ++
                  [curr.withInputs (replaceFirstNamed curr.inputs n (.inline prev))] ++
                  b.drop (i + 1))
      | _ => none
  | _, _ => none

/-- Scan positions `i, i+1, …` while `i < b.length` (the `for` loop bound
becomes the structural `fuel`, initialized to `b.length`). -/
def scanFrom (b : List IROpPrim) (rids : List String) : Nat → Nat → Option (List IROpPrim)
  | _, 0 => none
  | i, fuel + 1 =>
      if i < b.length then
        match scanAt b rids i with
        | some b' => some b'
        | none => scanFrom b rids (i + 1) fuel
      else none

/-- One pass of the `while (changed)` scan, starting at `i = 1`. -/
def scanStep (b : List IROpPrim) (rids : List String) : Option (List IROpPrim) :=
  scanFrom b rids 1 b.length

/-- The `while (changed)` loop; every applied step removes one statement,
so `fuel = body.length` always reaches the fixpoint. -/
def inlineLoop : Nat → List IROpPrim → List String → List IROpPrim
  | 0, b, _ => b
  | fuel + 1, b, rids =>
      match scanStep b rids with
      | none => b
      | some b' => inlineLoop fuel b' rids

/-- `inlinePrevSingleUse`: iterate the adjacent-pair inlining to fixpoint. -/
def inlinePrevSingleUse (fn : IRFunction) : IRFunction :=
  fn.withBody (inlineLoop fn.body.length fn.body (fn.result.map IRValueRef.id))

/-! ## Pass pipeline (from `middle/pipeline.ts`)

`defaultPipeline().run`: first recurse into every `cont` / `cont_map`
operand of every body statement, then apply `inlineConsts` followed by
`inlinePrevSingleUse`. (The source's reference-equality container-reuse
optimization has no structural effect and is dropped.) -/

def applyPasses (fn : IRFunction) : IRFunction :=
  inlinePrevSingleUse (inlineConsts fn)

mutual

/-- `Pipeline.run` of the default pipeline. -/
def pipelineRun : IRFunction → IRFunction
  | .mk args body result asmTail tsi de dse =>
      applyPasses (.mk args (runBody body) result asmTail tsi de dse)

def runBody : List IROpPrim → List IROpPrim
  | [] => []
  | s :: ss => runStmt s :: runBody ss

def runStmt : IROpPrim → IROpPrim
  | .mk spec mnem ins ops outs => .mk spec mnem ins (runOperandsList ops) outs

def runOperandsList : List (String × IROperandValue) → List (String × IROperandValue)
  | [] => []
  | (n, v) :: rest => (n, runOnOperand v) :: runOperandsList rest

/-- `runOnOperand`: descend into `cont` and `cont_map` operand values. -/
def runOnOperand : IROperandValue → IROperandValue
  | .cont f => .cont (pipelineRun f)
  | .contMap m => .contMap (runContMap m)
  | .intV n => .intV n
  | .boolV b => .boolV b
  | .otherV => .otherV

def runContMap : List (Int × IRFunction) → List (Int × IRFunction)
  | [] => []
  | (k, f) :: rest => (k, pipelineRun f) :: runContMap rest

end

/-! ## Catalog instances used by the concrete scenarios

These mirror the external instruction catalog's entries for the opcodes the
scenarios need (bit encodings are irrelevant to the lifter and left empty). -/

/-- `ADD`: two simple integer inputs `x`, `y`, one simple output, ordinary
category, fall-through control flow with no branches. -/
def addInsn : Instruction :=
  { mnemonic := "ADD", doc := ⟨"arithm_basic"⟩, bytecode := ⟨[], none⟩,
    valueFlow := some ⟨some [.simple "x" (some ["Int"]), .simple "y" (some ["Int"])],
                       some [.simple "z" (some ["Int"])]⟩,
    controlFlow := ⟨[], true⟩ }

/-- `NOP`: a stack-category no-op. -/
def nopInsn : Instruction :=
  { mnemonic := "NOP", doc := ⟨"stack_basic"⟩, bytecode := ⟨[], none⟩,
    valueFlow := some ⟨some [], some []⟩,
    controlFlow := ⟨[], true⟩ }

/-- Scenario B input: a single `ADD` with no preceding producers and a
trailing no-op. -/
def c1prog : List (Instruction × VarMap) := [(addInsn, []), (nopInsn, [])]

/-- A family of test instructions with `n` simple stack inputs and no
outputs (used to probe the underflow-retry cap). -/
def mkNIn (n : Nat) : Instruction :=
  { mnemonic := "TESTIN", doc := ⟨"test"⟩, bytecode := ⟨[], none⟩,
    valueFlow := some ⟨some ((List.range n).map (fun i => .simple ("a" ++ toString i) none)),
                       some []⟩,
    controlFlow := ⟨[], true⟩ }

/-- A constant-producing instruction (catalog shape of `PUSHINT_4`). -/
def pushIntInsn : Instruction :=
  { mnemonic := "PUSHINT_4", doc := ⟨"const_int"⟩, bytecode := ⟨[], none⟩,
    valueFlow := some ⟨some [], some [.simple "x" (some ["Int"])]⟩,
    controlFlow := ⟨[], true⟩ }

def pushIntProg : List (Instruction × VarMap) := [(pushIntInsn, [("i", .intV 7)])]

/-- A zero-arm guard, as created by a conditional output with an empty
`match` list and no `else` arm. -/
def zeroArmGuardStack : Stack := Stack.ensureGuard ⟨[], none⟩ 0 0

/-! ### Projections used to state concrete lift results -/

def runArgsIds (r : EStateM.Result LiftErr Nat IRFunction) : List String :=
  match r with
  | .ok f _ => f.args.map (fun d => d.id)
  | .error _ _ => []

def runResultIds (r : EStateM.Result LiftErr Nat IRFunction) : List String :=
  match r with
  | .ok f _ => f.result.map (fun v => v.id)
  | .error _ _ => []

def runDecErr (r : EStateM.Result LiftErr Nat IRFunction) : Option String :=
  match r with
  | .ok f _ => f.decompileError
  | .error _ _ => some "thrown"

/-- The result-id list of a second lift of the same program, run with the
counter value left behind by a first lift (which is what the source's
`static _varCounter` does across two decompilation runs in one process). -/
def secondRunResultIds (insns : List (Instruction × VarMap)) : List String :=
  match (lift insns).run 0 with
  | .ok _ c1 => runResultIds ((lift insns).run c1)
  | .error _ c1 => runResultIds ((lift insns).run c1)

/-! ## Spec-side characterizations

The following definitions restate, in the words of the (amended) claims,
what the corresponding source functions compute. Each is compared with the
translated source definition by a theorem. -/

/-- Fresh merged variables `var{c}…var{c+n-1}`. -/
def mergedNames (n c : Nat) : List StackVariable :=
  (List.range n).map (fun i => ⟨"var" ++ toString (c + i), none⟩)

/-- Spec-side acceptance of one candidate prefix length: peek `n` bits,
look them up; on a hit with a range check, peek the `len` bits after the
prefix and accept only within `[lo, hi]`. -/
def acceptsAt (instrs : List Instruction) (bits : List Bool) (n : Nat) : Option Instruction :=
  match peekBits bits n with
  | none => none
  | some key =>
      match tableLookup instrs key with
      | none => none
      | some instr =>
          match instr.bytecode.rangeCheck with
          | none => some instr
          | some rc =>
              match peekBits (bits.drop n) rc.len with
              | none => none
              | some ops =>
                  if rc.lo ≤ natOfBits ops ∧ natOfBits ops ≤ rc.hi then some instr else none

/-- First accepting candidate length among the next `fuel` lengths
starting at `n`. -/
def firstAcceptFrom (instrs : List Instruction) (bits : List Bool) :
    Nat → Nat → Option (Nat × Instruction)
  | _, 0 => none
  | n, fuel + 1 =>
      match acceptsAt instrs bits n with
      | some i => some (n, i)
      | none => firstAcceptFrom instrs bits (n + 1) fuel

/-- The claim's description of prefix matching: the first accepting length
in `[1, maxPfxLen]` wins and its prefix bits are consumed; if no length
accepts, decoding fails with `PrefixNotFound`. -/
def loadPfxSpec (instrs : List Instruction) (bits : List Bool) :
    Except DecodeErr (Instruction × List Bool) :=
  match firstAcceptFrom instrs bits 1 (maxPfxLen instrs) with
  | some (n, i) => pure (i, bits.drop n)
  | none => throw DecodeErr.prefixNotFound

/-- Bits needed so that every candidate peek (prefix and range-check
operand read) of `loadPfx` is in range. -/
def decodeDemand (instrs : List Instruction) : Nat :=
  max (maxPfxLen instrs)
    ((instrs.map (fun i =>
      match i.bytecode.rangeCheck with
      | some rc => i.bytecode.prefixBits.length + rc.len
      | none => 0)).foldl max 0)

/-! ### C2: spec-side control-flow characterization -/

/-- A resolved branch: `(var_name, save.c0.type, target function)`. -/
abbrev BranchTarget := String × Option String × IRFunction

def btBranch (b : BranchTarget) : BranchSpec := .varBranch b.1 b.2.1

def btPairs (bts : List BranchTarget) : List (Nat × Nat) :=
  bts.map (fun b => (b.2.2.args.length, b.2.2.result.length))

/-- The args−results difference of the first branch whose target takes at
least one argument (the branch that activates the consistency check). -/
def firstDiff : List (Nat × Nat) → Option Int
  | [] => none
  | (a, r) :: rest => if 1 ≤ a then some ((a : Int) - r) else firstDiff rest

/-- The first branch violating the consistency check, scanning with the
running difference: branches before the activating one are exempt. -/
def violAux : List BranchTarget → Option Int → Option (String × Nat × Nat)
  | [], _ => none
  | (v, _, f) :: rest, some d =>
      if (f.args.length : Int) - f.result.length ≠ d then
        some (v, f.args.length, f.result.length)
      else violAux rest (some d)
  | (_, _, f) :: rest, none =>
      violAux rest
        (if 1 ≤ f.args.length then some ((f.args.length : Int) - f.result.length) else none)

def maxArgsSpec (bts : List BranchTarget) : Nat :=
  ((btPairs bts).map (fun p => p.1)).foldl max 0

def maxRetsPre (bts : List BranchTarget) : Int :=
  match firstDiff (btPairs bts) with
  | none => -1
  | some d => (maxArgsSpec bts : Int) - d

def hasJumpsSpec (bts : List BranchTarget) : Bool :=
  bts.any (fun b => b.2.1 ≠ some "cc")

/-- The additional named inputs contributed by one branch: one id per
formal parameter of the target, peeked top-down off a copy of the stack,
named `<var>_<argId>` in reverse-parameter order. -/
def branchInputsSpec (v : String) (f : IRFunction) (s : Stack) : IRInputs :=
  (f.args.reverse.zip (s.entries.reverse.take f.args.length)).map
    (fun p => (v ++ "_" ++ p.1.id, .ref (.mk p.2.name none none)))

def acfInputsSpec (bts : List BranchTarget) (s : Stack) : IRInputs :=
  bts.flatMap (fun b => branchInputsSpec b.1 b.2.2 s)

/-- The `out_0…out_{n-1}` outputs pushed for the branch returns. -/
def outsSpec (n c : Nat) : IROutputs :=
  (List.range n).map (fun i => ("out_" ++ toString i, (⟨"var" ++ toString (c + i), none⟩ : IRValueDef)))

def argsFold (A : Nat) (bts : List BranchTarget) : Nat :=
  ((btPairs bts).map (fun p => p.1)).foldl max A

def stOptOf (st : AcfState) : Option Int :=
  if st.maxRets = -1 then none else some ((st.maxArgs : Int) - st.maxRets)

def retsFold (st : AcfState) (bts : List BranchTarget) : Int :=
  match stOptOf st with
  | none =>
      (match firstDiff (btPairs bts) with
       | none => -1
       | some d => (argsFold st.maxArgs bts : Int) - d)
  | some d => (argsFold st.maxArgs bts : Int) - d

def maxRetsSpec (bts : List BranchTarget) : Nat :=
  if hasJumpsSpec bts ∨ maxRetsPre bts = -1 then 0 else (maxRetsPre bts).toNat


/-! ### C2 counterexample / witness instances -/

/-- A branch target with no formals and two results. -/
def tgt02 : IRFunction :=
  .mk [] [] [.mk "t0" none none, .mk "t1" none none] [] none none none

/-- A branch target with one formal and one result. -/
def tgt11 : IRFunction :=
  .mk [⟨"p0", none⟩] [] [.mk "p0" none none] [] none none none

def c2bts : List BranchTarget := [("c1", some "cc", tgt02), ("c2", some "cc", tgt11)]

/-- An instruction declaring the two branches of `c2bts`
(`nobranch = false`, like a conditional with both arms declared). -/
def c2insn : Instruction :=
  { mnemonic := "TESTBR", doc := ⟨"test"⟩, bytecode := ⟨[], none⟩,
    valueFlow := some ⟨some [], some []⟩,
    controlFlow := ⟨c2bts.map btBranch, false⟩ }

def c2operands : VarMap := [("c1", .cont tgt02), ("c2", .cont tgt11)]

def c2stack : Stack := ⟨[⟨"s0", none⟩], none⟩

def c2wbts : List BranchTarget := [("c", some "cc", tgt11)]

def c2winsn : Instruction :=
  { mnemonic := "TESTBR1", doc := ⟨"test"⟩, bytecode := ⟨[], none⟩,
    valueFlow := some ⟨some [], some []⟩,
    controlFlow := ⟨c2wbts.map btBranch, true⟩ }

def c2woperands : VarMap := [("c", .cont tgt11)]

/-! ### C5 witness instances: a range check that barely fails falls through
to the next candidate length -/

def c5iA : Instruction :=
  { mnemonic := "RCHECKED", doc := ⟨"test"⟩, bytecode := ⟨[true], some ⟨1, 2, 2⟩⟩,
    valueFlow := none, controlFlow := ⟨[], true⟩ }

def c5iB : Instruction :=
  { mnemonic := "PLAIN", doc := ⟨"test"⟩, bytecode := ⟨[true, true], none⟩,
    valueFlow := none, controlFlow := ⟨[], true⟩ }

def c5table : List Instruction := [c5iA, c5iB]

def c5bits : List Bool := [true, true, true]

/-! ### C6: spec-side description of `inlineConsts` -/

/-- JS `Map` lookup over the producer list (the last entry for a duplicated
key wins). -/
def prodLookup (ps : List ProducerEntry) (id : String) : Option ProducerEntry :=
  ps.reverse.find? (fun p => p.outId = id)

/-- Substitute one input: a reference whose id has a const producer becomes
an inline expression wrapping the (full) producer statement. -/
def inpSubst (ps : List ProducerEntry) (q : String × IRInputArg) : String × IRInputArg :=
  match q.2 with
  | .ref r =>
      match prodLookup ps r.id with
      | some p => (q.1, .inline p.stmt)
      | none => q
  | .inline _ => q

/-- Replace every reference input whose id has a const producer by an
inline expression wrapping the (full) producer statement. -/
def mapStmtWith (ps : List ProducerEntry) (st : IROpPrim) : IROpPrim :=
  st.withInputs (st.inputs.map (inpSubst ps))

/-- The names of the reference inputs of `ins` whose id is `id` (the use
sites of `id` within one statement, name component only). -/
def nameSitesFor (ins : IRInputs) (id : String) : List String :=
  ins.filterMap (fun q =>
    match q.2 with
    | .ref r => if r.id = id then some q.1 else none
    | .inline _ => none)

/-- The ids of the reference inputs of `ins` (inline arguments skipped). -/
def refIds (ins : IRInputs) : List String :=
  ins.filterMap (fun q =>
    match q.2 with
    | .ref r => some r.id
    | .inline _ => none)

/-- All reference-input ids of a body. -/
def bodyRefIds (b : List IROpPrim) : List String :=
  b.flatMap (fun st => refIds st.inputs)

/-- No single-output const-category statement of the body has its output id
referenced anywhere in the body (the state `inlineConsts` leaves behind). -/
def InvP (b : List IROpPrim) : Prop :=
  ∀ st ∈ b, ∀ o, st.outputs = [o] → isConstCategory st.spec.doc.category = true →
    o.2.id ∉ bodyRefIds b

/-- Trace relation of the optimization passes: every statement of the new
body keeps the operands, outputs and spec of some statement of the old
body, and reference ids only disappear. -/
def TrB (b b' : List IROpPrim) : Prop :=
  (∀ st' ∈ b', ∃ st ∈ b, st'.operands = st.operands ∧ st'.outputs = st.outputs ∧
    st'.spec = st.spec) ∧
  (∀ id ∈ bodyRefIds b', id ∈ bodyRefIds b)

/-- The amended claim's description of the pass: substitute every use site
of every single-output const producer, and drop exactly those producers
that have at least one use site and whose output id is not in `result`. -/
def specInlineConsts (fn : IRFunction) : IRFunction :=
  let body := fn.body
  let ps := constProducers body
  let resultIds := fn.result.map IRValueRef.id
  let rm := ps.filterMap (fun p =>
      if (collectSites body p.outId).length ≠ 0 ∧ ¬ resultIds.contains p.outId then
        some p.stmtIndex
      else none)
  fn.withBody (dropIndexed (body.map (mapStmtWith ps)) rm 0)

/-- Per-statement input-name uniqueness (the §3 invariant "names within
each list are unique"), as a decidable body predicate. -/
def nodupNamesBody (b : List IROpPrim) : Bool :=
  b.all (fun st => decide (st.inputs.map Prod.fst).Nodup)

/-- The C6 counterexample function: one const producer whose single output
is used nowhere and does not appear in `result`. -/
def c6fn : IRFunction :=
  .mk [] [.mk pushIntInsn "PUSHINT_4" [] [("i", .intV 7)] [("x", ⟨"var0", some ["Int"]⟩)]]
    [] [] none none none

/-! ### C7: recursive well-formedness (per-statement input-name uniqueness,
also inside lifted continuations) -/

/-- All output ids defined by a body, in order. -/
def bodyOutIds (b : List IROpPrim) : List String :=
  b.flatMap (fun st => st.outputs.map (fun o => o.2.id))

mutual

def wfFun : IRFunction → Bool
  | .mk _ body _ _ _ _ _ => decide (bodyOutIds body).Nodup && wfBody body

def wfBody : List IROpPrim → Bool
  | [] => true
  | s :: ss => wfStmt s && wfBody ss

def wfStmt : IROpPrim → Bool
  | .mk _ _ ins ops _ => decide ((ins.map Prod.fst).Nodup) && wfOps ops

def wfOps : List (String × IROperandValue) → Bool
  | [] => true
  | (_, v) :: rest => wfVal v && wfOps rest

def wfVal : IROperandValue → Bool
  | .cont f => wfFun f
  | .contMap m => wfMap m
  | .intV _ => true
  | .boolV _ => true
  | .otherV => true

def wfMap : List (Int × IRFunction) → Bool
  | [] => true
  | (_, f) :: rest => wfFun f && wfMap rest

end

/-- A small well-formed function exercising both passes: a const producer
feeding an `ADD` whose output is returned. -/
def c7fn : IRFunction :=
  .mk [⟨"arg0", none⟩]
    [ .mk pushIntInsn "PUSHINT_4" [] [("i", .intV 7)] [("x", ⟨"var0", some ["Int"]⟩)],
      .mk addInsn "ADD"
        [("y", .ref (.mk "var0" (some ["Int"]) none)), ("x", .ref (.mk "arg0" (some ["Int"]) none))]
        [] [("z", ⟨"var1", some ["Int"]⟩)] ]
    [.mk "var1" none none] [] none none none

/-- The expected lift of Scenario B (`ADD` then `NOP` on an empty stack),
as the source computes it: the two synthesized parameters appear as
`[arg1, arg0]` (bottom-to-top stack order: the deepest slot carries the
highest-numbered parameter). -/
def c1expected : IRFunction :=
  .mk [⟨"arg1", none⟩, ⟨"arg0", none⟩]
    [.mk addInsn "ADD"
      [("y", .ref (.mk "arg0" (some ["Int"]) none)), ("x", .ref (.mk "arg1" (some ["Int"]) none))]
      [] [("z", ⟨"var0", some ["Int"]⟩)]]
    [.mk "var0" none none] [] none none none

/-! # Theorems -/

/-! ## Monad run helpers -/

@[simp] theorem CounterM.run_pure {α : Type} (a : α) (c : Nat) :
    (pure a : CounterM α).run c = .ok a c := rfl

theorem CounterM.run_bind {α β : Type} (x : CounterM α) (f : α → CounterM β) (c : Nat) :
    (x >>= f).run c =
      match x.run c with
      | .ok a c' => (f a).run c'
      | .error e c' => .error e c' := by
  simp only [Bind.bind, EStateM.run, EStateM.bind]
  cases x c <;> rfl

@[simp] theorem CounterM.run_throw {α : Type} (e : LiftErr) (c : Nat) :
    (throw e : CounterM α).run c = .error e c := rfl

theorem freshVars_run (n c : Nat) :
    (freshVars n).run c = .ok (mergedNames n c) (c + n) := by
  induction n generalizing c with
  | zero => rfl
  | succ n ih =>
      show ((freshVar >>= fun v => freshVars n >>= fun vs => pure (v :: vs)).run c) = _
      rw [CounterM.run_bind]
      rw [show (freshVar.run c) =
        .ok (⟨"var" ++ toString c, none⟩ : StackVariable) (c + 1) from rfl]
      show ((freshVars n >>= fun vs =>
        pure ((⟨"var" ++ toString c, none⟩ : StackVariable) :: vs)).run (c + 1)) = _
      rw [CounterM.run_bind, ih (c + 1)]
      show EStateM.Result.ok
        ((⟨"var" ++ toString c, none⟩ : StackVariable) :: mergedNames n (c + 1)) (c + 1 + n) = _
      have h2 : mergedNames (n + 1) c =
          (⟨"var" ++ toString c, none⟩ : StackVariable) :: mergedNames n (c + 1) := by
        unfold mergedNames
        rw [List.range_succ_eq_map, List.map_cons, List.map_map]
        have h3 : ∀ i : Nat, c + 1 + i = c + (i + 1) := by omega
        simp [Function.comp, h3]
      rw [h2]
      have h4 : c + 1 + n = c + (n + 1) := by omega
      rw [h4]

/-! ## C1 — Scenario B: parameter inference by underflow -/

/-- C1 counterexample: lifting `ADD` (with a trailing `NOP`), the function's
parameter list is `[arg1, arg0]`, not `[arg0, arg1]` as the claim states:
each retry prepends its fresh argument to the front of `args`
(`args.unshift(...newArgs)`), so the second synthesized parameter `arg1`
ends up first. -/
theorem c1_add_args_order_counterexample :
    runArgsIds ((lift c1prog).run 0) = ["arg1", "arg0"] ∧
      (["arg1", "arg0"] : List String) ≠ ["arg0", "arg1"] :=
  ⟨rfl, by decide⟩

/-- C1 (amended): for a lifted slice consisting of a single `ADD` with no
preceding producers and a trailing no-op, the lifter synthesizes exactly two
parameters by underflow retry and returns `args = [arg1, arg0]` (deepest
stack slot carries the highest-numbered parameter), body
`[ADD(y = arg0, x = arg1) → var0]`, and `result = [var0]`, with no errors. -/
theorem c1_add_underflow_lift : (lift c1prog).run 0 = .ok c1expected 1 := rfl

/-! ## C3 — guard finalization -/

/-- C3 counterexample: a guard whose arm list is empty (created by a
conditional output with an empty `match` and no `else`) has all of its
(zero) arms trivially holding the same number of pending variables, yet
`tryFinalizeGuard` does not succeed: it returns `null` and leaves the guard
in place (`if (lens.length === 0) return null`), contradicting the claim's
"succeeds exactly when … and when every arm has zero pending entries the
guard is cleared immediately". -/
theorem c3_zero_arm_guard_counterexample :
    (Stack.tryFinalizeGuard zeroArmGuardStack).run 0 = .ok (none, zeroArmGuardStack) 0 ∧
      zeroArmGuardStack.guard = some ⟨0, []⟩ :=
  ⟨rfl, rfl⟩

/-- C3 (amended): `tryFinalizeGuard` succeeds exactly when an active guard
has at least one arm and all arms hold the same number of pending
variables; on success it allocates one fresh merged variable per position,
inserts them at the guard boundary (below the `depth` currently-available
entries), clears the guard, and returns the merged list; when every arm
(of at least one) has zero pending entries the guard is cleared immediately
and the merged list is empty; with unequal arms (or no arms) it returns
`none` and changes nothing. -/
theorem c3_tryFinalizeGuard_amended (s : Stack) (g : GuardState) (c : Nat)
    (h : s.guard = some g) :
    (g.branches = [] → (s.tryFinalizeGuard).run c = .ok (none, s) c) ∧
    (∀ l rest, g.branches = l :: rest →
      ((∀ b ∈ g.branches, b.length = l.length) →
        (l.length = 0 → (s.tryFinalizeGuard).run c = .ok (some [], ⟨s.entries, none⟩) c) ∧
        (0 < l.length →
          (s.tryFinalizeGuard).run c =
            .ok (some (mergedNames l.length c),
                 ⟨s.entries.take (s.entries.length - g.depth) ++ mergedNames l.length c ++
                   s.entries.drop (s.entries.length - g.depth), none⟩) (c + l.length))) ∧
      ((∃ b ∈ g.branches, b.length ≠ l.length) →
        (s.tryFinalizeGuard).run c = .ok (none, s) c)) := by
  obtain ⟨es, gu⟩ := s
  obtain ⟨d, br⟩ := g
  cases h
  constructor
  · intro hbr
    cases hbr
    rfl
  · intro l rest hbr
    cases hbr
    constructor
    · intro hall
      have hrest : ((rest.map List.length).all fun x => decide (x = l.length)) = true := by
        simp only [List.all_eq_true, List.mem_map]
        rintro x ⟨b, hb, rfl⟩
        exact decide_eq_true (hall b (List.mem_cons_of_mem _ hb))
      constructor
      · intro hl
        show (Stack.tryFinalizeGuard _).run c = _
        unfold Stack.tryFinalizeGuard
        simp only [List.map_cons]
        rw [hl] at hrest ⊢
        simp only [hrest, if_true]
        rfl
      · intro hl
        have hne : l.length ≠ 0 := Nat.pos_iff_ne_zero.mp hl
        show (Stack.tryFinalizeGuard _).run c = _
        unfold Stack.tryFinalizeGuard
        simp only [List.map_cons, hrest, if_true, if_neg hne]
        rw [CounterM.run_bind, freshVars_run]
        rfl
    · intro hex
      obtain ⟨b, hb, hbne⟩ := hex
      have hrest : ((rest.map List.length).all fun x => decide (x = l.length)) = false := by
        rcases List.mem_cons.mp hb with rfl | hb'
        · exact absurd rfl hbne
        · simp only [List.all_eq_false]
          refine ⟨b.length, List.mem_map_of_mem _ hb', by simpa using hbne⟩
      show (Stack.tryFinalizeGuard _).run c = _
      unfold Stack.tryFinalizeGuard
      simp only [List.map_cons, hrest]
      rfl

/-- C3 witness: a two-arm guard with one pending variable per arm
finalizes, inserting one merged `var0` below the available region. -/
theorem c3_tryFinalizeGuard_amended_witness :
    (Stack.tryFinalizeGuard ⟨[⟨"e1", none⟩], some ⟨1, [[⟨"p", none⟩], [⟨"q", none⟩]]⟩⟩).run 0 =
      .ok (some [⟨"var0", none⟩], ⟨[⟨"var0", none⟩, ⟨"e1", none⟩], none⟩) 1 := by
  have h := (c3_tryFinalizeGuard_amended
      ⟨[⟨"e1", none⟩], some ⟨1, [[⟨"p", none⟩], [⟨"q", none⟩]]⟩⟩
      ⟨1, [[⟨"p", none⟩], [⟨"q", none⟩]]⟩ 0 rfl).2
      [⟨"p", none⟩] [[⟨"q", none⟩]] rfl
  have h2 := (h.1 (by decide)).2 (by decide)
  exact h2

/-! ## C4 — pushes and pops under an active guard -/

/-- C4 counterexample: with an active guard of depth 1, a pop "would make
the depth fall to zero", yet it succeeds (returning the top value and
leaving depth 0) instead of failing with `GuardUnresolved`: the source only
rejects a pop when the depth is already `≤ 0`. -/
theorem c4_guard_pop_counterexample :
    (Stack.pop ⟨[⟨"a", none⟩], some ⟨1, [[]]⟩⟩).run 0 =
      .ok (⟨"a", none⟩, ⟨[], some ⟨0, [[]]⟩⟩) 0 ∧
    (Stack.pop ⟨[⟨"a", none⟩], some ⟨1, [[]]⟩⟩).run 0 ≠
      .error LiftErr.guardUnresolved 0 := by
  refine ⟨rfl, ?_⟩
  intro h
  rw [show (Stack.pop ⟨[⟨"a", none⟩], some ⟨1, [[]]⟩⟩).run 0 =
      .ok (⟨"a", none⟩, ⟨[], some ⟨0, [[]]⟩⟩) 0 from rfl] at h
  exact EStateM.Result.noConfusion h

/-- C4 (amended): while a guard is active, every push increments the
guard's depth; a pop requested when the depth is already zero fails with
`GuardUnresolved`; and a pop at positive depth succeeds, removing the top
entry and decrementing the depth (values above the boundary stay freely
usable). -/
theorem c4_guard_push_pop_amended (s : Stack) (g : GuardState) (c : Nat)
    (h : s.guard = some g) :
    (Stack.push s).run c =
      .ok (⟨"var" ++ toString c, none⟩,
           ⟨s.entries ++ [⟨"var" ++ toString c, none⟩], some ⟨g.depth + 1, g.branches⟩⟩) (c + 1) ∧
    (g.depth = 0 → (Stack.pop s).run c = .error .guardUnresolved c) ∧
    (∀ (es : List StackVariable) (v : StackVariable), s.entries = es ++ [v] → 0 < g.depth →
      (Stack.pop s).run c = .ok (v, ⟨es, some ⟨g.depth - 1, g.branches⟩⟩) c) := by
  obtain ⟨es0, gu⟩ := s
  obtain ⟨d, br⟩ := g
  cases h
  refine ⟨rfl, ?_, ?_⟩
  · intro hd; cases hd; rfl
  · intro es v he hd
    cases he
    have hd' : 0 < d := hd
    obtain ⟨k, rfl⟩ : ∃ k, d = k + 1 := ⟨d - 1, by omega⟩
    simp [Stack.pop, List.getLast?_concat, List.dropLast_concat]

/-- C4 witness: on a one-entry stack under a depth-1 guard, push appends
`var5` and raises the depth to 2; a pop at depth 0 fails; a pop at depth 1
succeeds. -/
theorem c4_guard_push_pop_amended_witness :
    (Stack.push ⟨[⟨"a", none⟩], some ⟨1, [[]]⟩⟩).run 5 =
      .ok (⟨"var5", none⟩, ⟨[⟨"a", none⟩, ⟨"var5", none⟩], some ⟨2, [[]]⟩⟩) 6 ∧
    (Stack.pop ⟨[⟨"a", none⟩], some ⟨0, [[]]⟩⟩).run 5 = .error .guardUnresolved 5 ∧
    (Stack.pop ⟨[⟨"a", none⟩], some ⟨1, [[]]⟩⟩).run 5 =
      .ok (⟨"a", none⟩, ⟨[], some ⟨0, [[]]⟩⟩) 5 :=
  ⟨(c4_guard_push_pop_amended _ ⟨1, [[]]⟩ 5 rfl).1,
   (c4_guard_push_pop_amended _ ⟨0, [[]]⟩ 5 rfl).2.1 rfl,
   (c4_guard_push_pop_amended _ ⟨1, [[]]⟩ 5 rfl).2.2 [] ⟨"a", none⟩ rfl (by decide)⟩

/-! ## C8 — the underflow-retry cap -/

/-- C8 counterexample: an instruction needing ten stack inputs on an empty
stack underflows ten times (each retry synthesizes one argument — the ten
synthesized `arg`s are visible in the result), after which the eleventh
attempt *succeeds*: no `decompileError` is recorded, contradicting "after
10 underflows on the same instruction the lifter stops retrying and records
a permanent decompileError". -/
theorem c8_retry_cap_counterexample :
    runDecErr ((lift [(mkNIn 10, [])]).run 0) = none ∧
    runArgsIds ((lift [(mkNIn 10, [])]).run 0) =
      ["arg9", "arg8", "arg7", "arg6", "arg5", "arg4", "arg3", "arg2", "arg1", "arg0"] :=
  ⟨rfl, rfl⟩

/-- C8 (amended): at most 10 underflow retries are performed per
instruction. Ten underflows still leave one final attempt: a 10-input
instruction on an empty stack lifts successfully with ten synthesized
parameters and no error, while an 11-input instruction exhausts the cap —
its eleventh underflow is not retried, only ten arguments are synthesized,
the statement is not emitted, and a permanent `decompileError` (the
rendered `StackUnderflowError`) is recorded with the instruction moved to
`asmTail`. -/
theorem c8_retry_cap_amended :
    runDecErr ((lift [(mkNIn 10, [])]).run 0) = none ∧
    runArgsIds ((lift [(mkNIn 10, [])]).run 0) =
      ["arg9", "arg8", "arg7", "arg6", "arg5", "arg4", "arg3", "arg2", "arg1", "arg0"] ∧
    runDecErr ((lift [(mkNIn 11, [])]).run 0) =
      some "StackUnderflowError: Stack underflow occured (depth = 1)" ∧
    runArgsIds ((lift [(mkNIn 11, [])]).run 0) =
      ["arg9", "arg8", "arg7", "arg6", "arg5", "arg4", "arg3", "arg2", "arg1", "arg0"] ∧
    (match (lift [(mkNIn 11, [])]).run 0 with
     | .ok f _ => (f.body.length, f.asmTail.length)
     | .error _ _ => (99, 99)) = (0, 1) :=
  ⟨rfl, rfl, rfl, rfl, rfl⟩

/-! ## C9 — the fresh-identifier counter is process-global, not per run -/

/-- C9: the identifier counter is a JS `static` class member, so it leaks
across decompilation runs: a first lift of a one-instruction constant
program names its result `var0`, and an identical, independent second run
executed afterwards in the same process (receiving the counter state the
first run left behind) names it `var1` — not the identical, reproducible
identifiers the spec requires of a per-run counter. -/
theorem c9_global_counter_bug :
    runResultIds ((lift pushIntProg).run 0) = ["var0"] ∧
    secondRunResultIds pushIntProg = ["var1"] ∧
    (["var0"] : List String) ≠ ["var1"] :=
  ⟨rfl, rfl, by decide⟩

/-! ## C10 — stack shuffles are rejected under an active guard -/

/-- C10: while a conditional-alignment guard is active, `buildOp` on any
stack-category instruction fails with the (non-retryable, hence recorded as
`decompileError` by the lift loop) error thrown by `execStackInstruction`'s
guard check, before any shuffle logic runs — even if the shuffle would only
touch entries above the boundary. -/
theorem c10_stack_op_guard_error (spec : Instruction) (operands : VarMap) (s : Stack)
    (g : GuardState) (c : Nat) (hcat : isStackOp spec = true) (h : s.guard = some g) :
    (buildOp spec operands s).run c =
      .error (.otherErr
        ("Stack operation '" ++ spec.mnemonic ++
          "' is not allowed while conditional guard is active")) c := by
  simp [buildOp, hcat, Stack.execStackInstruction, h, CounterM.run_bind]

/-- C10 witness: a `NOP` (which would not touch the stack at all) under an
active one-deep guard still fails. -/
theorem c10_stack_op_guard_error_witness :
    (buildOp nopInsn [] ⟨[⟨"a", none⟩], some ⟨1, [[]]⟩⟩).run 3 =
      .error (.otherErr "Stack operation 'NOP' is not allowed while conditional guard is active") 3 :=
  c10_stack_op_guard_error nopInsn [] _ ⟨1, [[]]⟩ 3 rfl rfl

/-! ## C5 — opcode prefix matching -/

theorem le_foldl_max_seed (l : List Nat) (a b : Nat) (h : b ≤ a) : b ≤ l.foldl max a := by
  induction l generalizing a with
  | nil => exact h
  | cons y ys ih => exact ih _ (le_trans h (le_max_left _ _))

theorem foldl_max_le_mem (l : List Nat) (a x : Nat) (hx : x ∈ l) : x ≤ l.foldl max a := by
  induction l generalizing a with
  | nil => cases hx
  | cons y ys ih =>
      rcases List.mem_cons.mp hx with rfl | h
      · rw [List.foldl_cons]
        exact le_foldl_max_seed _ _ _ (le_max_right a x)
      · exact ih _ h

theorem tableLookup_mem {instrs : List Instruction} {key : List Bool} {i : Instruction}
    (h : tableLookup instrs key = some i) :
    i ∈ instrs ∧ i.bytecode.prefixBits = key := by
  unfold tableLookup at h
  refine ⟨List.mem_reverse.mp (List.mem_of_find?_eq_some h), ?_⟩
  have := List.find?_some h
  exact of_decide_eq_true this

theorem loadPfxGo_eq (instrs : List Instruction) (bits : List Bool)
    (hrc : ∀ i ∈ instrs, ∀ rc, i.bytecode.rangeCheck = some rc →
      i.bytecode.prefixBits.length + rc.len ≤ bits.length) :
    ∀ fuel n, n + fuel ≤ bits.length + 1 →
      loadPfxGo instrs bits n fuel =
        (match firstAcceptFrom instrs bits n fuel with
         | some (m, i) => .ok (i, bits.drop m)
         | none => .error .prefixNotFound) := by
  intro fuel
  induction fuel with
  | zero => intro n _; rfl
  | succ fuel ih =>
      intro n hn
      have hpeek : peekBits bits n = some (bits.take n) := by
        unfold peekBits
        rw [if_pos (by omega)]
      rw [loadPfxGo, firstAcceptFrom]
      unfold acceptsAt
      rw [hpeek]
      dsimp only
      cases htl : tableLookup instrs (bits.take n) with
      | none =>
          dsimp only
          exact ih (n + 1) (by omega)
      | some instr =>
          dsimp only
          obtain ⟨hmem, hpfx⟩ := tableLookup_mem htl
          cases hrch : instr.bytecode.rangeCheck with
          | none => dsimp only; rfl
          | some rc =>
              dsimp only
              have hlen2 : n + rc.len ≤ bits.length := by
                have h1 := hrc instr hmem rc hrch
                rw [hpfx] at h1
                rw [List.length_take] at h1
                omega
              have hpeek2 : peekBits (bits.drop n) rc.len =
                  some ((bits.drop n).take rc.len) := by
                unfold peekBits
                rw [if_pos (by rw [List.length_drop]; omega)]
              rw [if_pos hlen2, hpeek2]
              dsimp only
              by_cases hv : natOfBits ((bits.drop n).take rc.len) < rc.lo ∨
                  natOfBits ((bits.drop n).take rc.len) > rc.hi
              · rw [if_pos hv, if_neg (by omega)]
                exact ih (n + 1) (by omega)
              · rw [if_neg hv, if_pos (by constructor <;> omega)]
                rfl

/-- C5: the opcode decoder's prefix matching is exactly the claim's
first-accepting-length rule: iterate candidate lengths `1 … maxPfxLen`,
peek and look up; a hit with a range check accepts only when the `len`
bits after the prefix lie in `[lo, hi]` and otherwise falls through to the
next candidate length; the first accepting length wins and its prefix bits
are consumed; if no length accepts, decoding fails with `PrefixNotFound`.
The hypothesis gives the slice enough bits for every candidate peek (the
external slice cursor fails reads past its end). -/
theorem c5_prefix_match_spec (instrs : List Instruction) (bits : List Bool)
    (h : decodeDemand instrs ≤ bits.length) :
    loadPfx instrs bits = loadPfxSpec instrs bits := by
  unfold loadPfx loadPfxSpec
  rw [loadPfxGo_eq]
  · rcases firstAcceptFrom instrs bits 1 (maxPfxLen instrs) with _ | ⟨m, i⟩ <;> rfl
  · intro i hi rc hrc
    refine le_trans ?_ (le_trans (le_max_right (maxPfxLen instrs) _) h)
    refine foldl_max_le_mem _ _ _ ?_
    refine List.mem_map.mpr ⟨i, hi, ?_⟩
    rw [hrc]
  · have : maxPfxLen instrs ≤ bits.length := le_trans (le_max_left _ _) h
    omega

/-- C5 witness: a one-bit prefix whose range check barely fails (value 3,
upper bound 2) falls through to the two-bit prefix, which wins and has its
two bits consumed. -/
theorem c5_prefix_match_spec_witness :
    decodeDemand c5table ≤ c5bits.length ∧
    loadPfx c5table c5bits = loadPfxSpec c5table c5bits ∧
    loadPfx c5table c5bits = .ok (c5iB, [true]) ∧
    natOfBits ((c5bits.drop 1).take 2) = 3 :=
  ⟨by decide, c5_prefix_match_spec c5table c5bits (by decide), rfl, by decide⟩


theorem pop_run_nonempty (s : Stack) (c : Nat) (hg : s.guard = none) (hne : s.entries ≠ []) :
    (s.pop).run c = .ok (s.entries.getLast hne, ⟨s.entries.dropLast, none⟩) c := by
  obtain ⟨es, gu⟩ := s
  cases hg
  unfold Stack.pop
  rw [List.getLast?_eq_getLast _ hne]
  rfl

theorem popBranchArgs_run (v : String) (argsF : List IRValueDef) (acc : IRInputs)
    (s : Stack) (c : Nat) (hg : s.guard = none) (hlen : argsF.length ≤ s.entries.length) :
    (popBranchArgs v argsF acc s).run c =
      .ok (acc ++ (argsF.zip (s.entries.reverse.take argsF.length)).map
        (fun p => (v ++ "_" ++ p.1.id, .ref (.mk p.2.name none none)))) c := by
  induction argsF generalizing acc s c with
  | nil => simp [popBranchArgs]
  | cons a rest ih =>
      simp only [List.length_cons] at hlen
      have hne : s.entries ≠ [] := by
        intro h
        rw [h] at hlen
        simp at hlen
      show ((s.pop >>= fun p => popBranchArgs v rest
        (acc ++ [(v ++ "_" ++ a.id, .ref (.mk p.1.name none none))]) p.2).run c) = _
      rw [CounterM.run_bind, pop_run_nonempty s c hg hne]
      dsimp only
      rw [ih _ ⟨s.entries.dropLast, none⟩ c rfl
        (by simp only [List.length_dropLast]; omega)]
      conv_rhs => rw [show s.entries = s.entries.dropLast ++ [s.entries.getLast hne] from
        (List.dropLast_append_getLast hne).symm]
      rw [List.reverse_append]
      simp only [List.reverse_singleton, List.singleton_append, List.length_cons,
        List.take_succ_cons, List.zip_cons_cons, List.map_cons]
      simp

theorem popN_run (s : Stack) (n c : Nat) (hg : s.guard = none)
    (hlen : n ≤ s.entries.length) :
    (s.popN n).run c = .ok ⟨s.entries.take (s.entries.length - n), none⟩ c := by
  induction n generalizing s c with
  | zero =>
      obtain ⟨es, gu⟩ := s
      cases hg
      show (pure (⟨es, none⟩ : Stack) : CounterM Stack).run c = _
      rw [CounterM.run_pure, Nat.sub_zero, List.take_length]
  | succ n ih =>
      have hne : s.entries ≠ [] := by
        intro h; rw [h] at hlen; simp at hlen
      show ((s.pop >>= fun p => p.2.popN n).run c) = _
      rw [CounterM.run_bind, pop_run_nonempty s c hg hne]
      dsimp only
      rw [ih ⟨s.entries.dropLast, none⟩ c rfl (by simp only [List.length_dropLast]; omega)]
      congr 2
      rw [List.length_dropLast, List.dropLast_eq_take, List.take_take]
      congr 1
      omega

theorem pushOutsGo_run (s : Stack) (i : Nat) (acc : IROutputs) (k c : Nat)
    (hg : s.guard = none) :
    (pushOuts.go s i acc k).run c =
      .ok (acc ++ (List.range k).map
            (fun j => ("out_" ++ toString (i + j), (⟨"var" ++ toString (c + j), none⟩ : IRValueDef))),
           ⟨s.entries ++ mergedNames k c, none⟩) (c + k) := by
  induction k generalizing s i acc c with
  | zero =>
      show (pure (acc, s) : CounterM (IROutputs × Stack)).run c = _
      rw [CounterM.run_pure]
      obtain ⟨es, gu⟩ := s
      cases hg
      simp [mergedNames]
  | succ k ih =>
      show ((Stack.push s >>= fun p => pushOuts.go p.2 (i + 1)
        (acc ++ [("out_" ++ toString i, (⟨p.1.name, none⟩ : IRValueDef))]) k).run c) = _
      rw [CounterM.run_bind]
      obtain ⟨es, gu⟩ := s
      cases hg
      rw [show ((⟨es, none⟩ : Stack).push).run c =
        .ok (⟨"var" ++ toString c, none⟩, ⟨es ++ [⟨"var" ++ toString c, none⟩], none⟩) (c + 1) from rfl]
      dsimp only
      rw [ih _ _ _ _ rfl]
      have h1 : (List.range (k + 1)).map
          (fun j => ("out_" ++ toString (i + j), (⟨"var" ++ toString (c + j), none⟩ : IRValueDef))) =
          ("out_" ++ toString i, (⟨"var" ++ toString c, none⟩ : IRValueDef)) ::
            (List.range k).map
              (fun j => ("out_" ++ toString (i + 1 + j), (⟨"var" ++ toString (c + 1 + j), none⟩ : IRValueDef))) := by
        rw [List.range_succ_eq_map, List.map_cons, List.map_map]
        have e1 : ∀ j : Nat, i + 1 + j = i + (j + 1) := by omega
        have e2 : ∀ j : Nat, c + 1 + j = c + (j + 1) := by omega
        simp [Function.comp, e1, e2]
      have h2 : mergedNames (k + 1) c =
          (⟨"var" ++ toString c, none⟩ : StackVariable) :: mergedNames k (c + 1) := by
        unfold mergedNames
        rw [List.range_succ_eq_map, List.map_cons, List.map_map]
        have e2 : ∀ j : Nat, c + 1 + j = c + (j + 1) := by omega
        simp [Function.comp, e2]
      rw [h1, h2]
      have e3 : c + 1 + k = c + (k + 1) := by omega
      rw [e3]
      simp

theorem pushOuts_run (s : Stack) (n c : Nat) (hg : s.guard = none) :
    (pushOuts s n).run c =
      .ok (outsSpec n c, ⟨s.entries ++ mergedNames n c, none⟩) (c + n) := by
  show (pushOuts.go s 0 [] n).run c = _
  rw [pushOutsGo_run s 0 [] n c hg]
  simp [outsSpec, Nat.zero_add]


theorem acfBranches_run (operands : VarMap) (stack : Stack) (stackInputs : IRInputs)
    (hg : stack.guard = none) :
    ∀ (bts : List BranchTarget) (st : AcfState) (c : Nat),
      (∀ b ∈ bts, operands.lookup b.1 = some (.cont b.2.2)) →
      (∀ b ∈ bts, b.2.2.args.length ≤ stack.entries.length) →
      (st.maxRets = -1 → st.maxArgs = 0) →
      (acfBranches operands stack stackInputs (bts.map btBranch) st).run c =
        (match violAux bts (stOptOf st) with
         | some (v, a, r) =>
             .error (.otherErr ("bad branch " ++ v ++ " with " ++ toString a ++
               " args and " ++ toString r)) c
         | none =>
             .ok ⟨st.inputs ++ acfInputsSpec bts stack, retsFold st bts,
                  argsFold st.maxArgs bts, st.hasJumps || hasJumpsSpec bts⟩ c) := by
  intro bts
  induction bts with
  | nil =>
      intro st c _ _ hInv
      obtain ⟨I, R, A, J⟩ := st
      show (pure _ : CounterM AcfState).run c = _
      rw [CounterM.run_pure]
      simp only [violAux, acfInputsSpec, List.flatMap_nil, List.append_nil, retsFold,
        argsFold, btPairs, List.map_nil, List.foldl_nil, stOptOf, hasJumpsSpec,
        List.any_nil, Bool.or_false, firstDiff]
      by_cases hR : R = -1
      · subst hR
        simp
      · rw [if_neg hR]
        dsimp only
        congr 2
        omega
  | cons b rest ih =>
      obtain ⟨v, s0, f⟩ := b
      intro st c hop hlen hInv
      obtain ⟨I, R, A, J⟩ := st
      have hres : resolveBranchTarget operands stackInputs v = pure f := by
        unfold resolveBranchTarget
        rw [hop (v, s0, f) (List.mem_cons_self _ _)]
      rw [List.map_cons]
      rw [show btBranch (v, s0, f) = .varBranch v s0 from rfl]
      rw [acfBranches, CounterM.run_bind, hres, CounterM.run_pure]
      dsimp only
      rw [CounterM.run_bind, popBranchArgs_run v f.args.reverse [] stack c hg
        (by rw [List.length_reverse]; exact hlen (v, s0, f) (List.mem_cons_self _ _))]
      dsimp only
      have hbi : ([] : IRInputs) ++ (f.args.reverse.zip
          (stack.entries.reverse.take f.args.reverse.length)).map
            (fun p => (v ++ "_" ++ p.1.id, IRInputArg.ref (.mk p.2.name none none))) =
          branchInputsSpec v f stack := by
        rw [List.nil_append, branchInputsSpec, List.length_reverse]
      rw [hbi]
      have hspec_cons : acfInputsSpec ((v, s0, f) :: rest) stack =
          branchInputsSpec v f stack ++ acfInputsSpec rest stack := by
        unfold acfInputsSpec
        rw [List.flatMap_cons]
      have hargs_cons : argsFold A ((v, s0, f) :: rest) =
          argsFold (max A f.args.length) rest := by
        unfold argsFold btPairs
        rw [List.map_cons, List.map_cons, List.foldl_cons]
      have hJ_cons : hasJumpsSpec ((v, s0, f) :: rest) =
          (decide (s0 ≠ some "cc") || hasJumpsSpec rest) := by
        unfold hasJumpsSpec
        rw [List.any_cons]
      by_cases hC : (R ≠ -1 ∧ (A : Int) - R ≠ (f.args.length : Int) - f.result.length)
      · rw [if_pos hC]
        rw [CounterM.run_throw]
        have hopt : stOptOf ⟨I, R, A, J⟩ = some ((A : Int) - R) := by
          unfold stOptOf
          rw [if_neg hC.1]
        show _ = (match violAux ((v, s0, f) :: rest) (stOptOf ⟨I, R, A, J⟩) with
          | some (w, a, r) => EStateM.Result.error (LiftErr.otherErr
              ("bad branch " ++ w ++ " with " ++ toString a ++ " args and " ++ toString r)) c
          | none => _)
        rw [hopt, violAux, if_pos (Ne.symm hC.2)]
      · rw [if_neg hC]
        by_cases hupd : f.args.length > A
        · rw [if_pos hupd]
          -- the branch activates / improves the maximum
          have hR2 : ((f.result.length : Int)) ≠ -1 := by omega
          have hopt2 : stOptOf ⟨I ++ branchInputsSpec v f stack, (f.result.length : Int),
              f.args.length, (if s0 ≠ some "cc" then true else J)⟩ =
              some ((f.args.length : Int) - f.result.length) := by
            unfold stOptOf
            rw [if_neg hR2]
          have hst2 : (if s0 ≠ some "cc" then
              ({ inputs := I ++ branchInputsSpec v f stack, maxRets := (f.result.length : Int),
                 maxArgs := f.args.length, hasJumps := true } : AcfState)
            else
              { inputs := I ++ branchInputsSpec v f stack, maxRets := (f.result.length : Int),
                maxArgs := f.args.length, hasJumps := J }) =
              ⟨I ++ branchInputsSpec v f stack, (f.result.length : Int), f.args.length,
               (if s0 ≠ some "cc" then true else J)⟩ := by
            by_cases hs : s0 = some "cc" <;> simp [hs]
          rw [hst2]
          rw [ih _ c (fun b hb => hop b (List.mem_cons_of_mem _ hb))
            (fun b hb => hlen b (List.mem_cons_of_mem _ hb))
            (by intro h2; exact absurd h2 hR2)]
          rw [hopt2]
          have hviol : violAux ((v, s0, f) :: rest) (stOptOf ⟨I, R, A, J⟩) =
              violAux rest (some ((f.args.length : Int) - f.result.length)) := by
            by_cases hR : R = -1
            · have hopt3 : stOptOf ⟨I, R, A, J⟩ = none := by
                unfold stOptOf
                dsimp only
                rw [if_pos hR]
              rw [hopt3, violAux, if_pos (by omega)]
            · have hd : (A : Int) - R = (f.args.length : Int) - f.result.length := by
                by_contra hne
                exact hC ⟨hR, hne⟩
              have hopt3 : stOptOf ⟨I, R, A, J⟩ = some ((A : Int) - R) := by
                unfold stOptOf
                dsimp only
                rw [if_neg hR]
              rw [hopt3, violAux, if_neg (by omega), hd]
          rw [hviol]
          cases hv : violAux rest (some ((f.args.length : Int) - f.result.length)) with
          | some w => rfl
          | none =>
              dsimp only
              congr 1
              have hAmax : max A f.args.length = f.args.length := by omega
              simp only [AcfState.mk.injEq]
              refine ⟨?_, ?_, ?_, ?_⟩
              · rw [hspec_cons, List.append_assoc]
              · unfold retsFold
                rw [hopt2]
                show _ = (match stOptOf ⟨I, R, A, J⟩ with
                  | none => (match firstDiff (btPairs ((v, s0, f) :: rest)) with
                             | none => -1
                             | some d => (argsFold A ((v, s0, f) :: rest) : Int) - d)
                  | some d => (argsFold A ((v, s0, f) :: rest) : Int) - d)
                by_cases hR : R = -1
                · have hA : A = 0 := hInv hR
                  unfold stOptOf
                  rw [if_pos hR]
                  dsimp only
                  have hfd : firstDiff (btPairs ((v, s0, f) :: rest)) =
                      some ((f.args.length : Int) - f.result.length) := by
                    unfold btPairs firstDiff
                    rw [List.map_cons]
                    dsimp only
                    rw [if_pos (by omega)]
                  rw [hfd, hargs_cons, hAmax]
                · have hd : (A : Int) - R = (f.args.length : Int) - f.result.length := by
                    by_contra hne
                    exact hC ⟨hR, hne⟩
                  unfold stOptOf
                  rw [if_neg hR]
                  dsimp only
                  rw [hd, hargs_cons, hAmax]
              · rw [hargs_cons, hAmax]
              · rw [hJ_cons]
                by_cases hs : s0 = some "cc" <;> simp [hs, Bool.or_assoc]
        · rw [if_neg hupd]
          have hAmax : max A f.args.length = A := by omega
          have hst2 : (if s0 ≠ some "cc" then
              ({ inputs := I ++ branchInputsSpec v f stack, maxRets := R,
                 maxArgs := A, hasJumps := true } : AcfState)
            else
              { inputs := I ++ branchInputsSpec v f stack, maxRets := R,
                maxArgs := A, hasJumps := J }) =
              ⟨I ++ branchInputsSpec v f stack, R, A,
               (if s0 ≠ some "cc" then true else J)⟩ := by
            by_cases hs : s0 = some "cc" <;> simp [hs]
          rw [hst2]
          rw [ih _ c (fun b hb => hop b (List.mem_cons_of_mem _ hb))
            (fun b hb => hlen b (List.mem_cons_of_mem _ hb))
            (by intro h2; exact hInv h2)]
          have hviol : violAux ((v, s0, f) :: rest) (stOptOf ⟨I, R, A, J⟩) =
              violAux rest (stOptOf ⟨I ++ branchInputsSpec v f stack, R, A,
                (if s0 ≠ some "cc" then true else J)⟩) := by
            by_cases hR : R = -1
            · have hA : A = 0 := hInv hR
              have hopt3 : stOptOf ⟨I, R, A, J⟩ = none := by
                unfold stOptOf
                dsimp only
                rw [if_pos hR]
              have hopt4 : stOptOf ⟨I ++ branchInputsSpec v f stack, R, A,
                  (if s0 ≠ some "cc" then true else J)⟩ = none := by
                unfold stOptOf
                dsimp only
                rw [if_pos hR]
              rw [hopt3, hopt4, violAux, if_neg (by omega)]
            · have hd2 : (A : Int) - R = (f.args.length : Int) - f.result.length := by
                by_contra hne
                exact hC ⟨hR, hne⟩
              have hopt3 : stOptOf ⟨I, R, A, J⟩ = some ((A : Int) - R) := by
                unfold stOptOf
                dsimp only
                rw [if_neg hR]
              have hopt4 : stOptOf ⟨I ++ branchInputsSpec v f stack, R, A,
                  (if s0 ≠ some "cc" then true else J)⟩ = some ((A : Int) - R) := by
                unfold stOptOf
                dsimp only
                rw [if_neg hR]
              rw [hopt3, hopt4, violAux, if_neg (by omega)]
          rw [← hviol]
          cases hv : violAux ((v, s0, f) :: rest) (stOptOf ⟨I, R, A, J⟩) with
          | some w => rfl
          | none =>
              dsimp only
              congr 1
              simp only [AcfState.mk.injEq]
              refine ⟨?_, ?_, ?_, ?_⟩
              · rw [hspec_cons, List.append_assoc]
              · unfold retsFold
                by_cases hR : R = -1
                · have hA : A = 0 := hInv hR
                  have ha0 : f.args.length = 0 := by omega
                  have hopt3 : stOptOf ⟨I, R, A, J⟩ = none := by
                    unfold stOptOf
                    dsimp only
                    rw [if_pos hR]
                  have hopt4 : stOptOf ⟨I ++ branchInputsSpec v f stack, R, A,
                      (if s0 ≠ some "cc" then true else J)⟩ = none := by
                    unfold stOptOf
                    dsimp only
                    rw [if_pos hR]
                  rw [hopt3, hopt4]
                  dsimp only
                  have hfd : firstDiff (btPairs ((v, s0, f) :: rest)) =
                      firstDiff (btPairs rest) := by
                    show firstDiff ((f.args.length, f.result.length) :: btPairs rest) = _
                    rw [firstDiff, if_neg (by omega)]
                  rw [hfd, hargs_cons, hAmax]
                · have hopt3 : stOptOf ⟨I, R, A, J⟩ = some ((A : Int) - R) := by
                    unfold stOptOf
                    dsimp only
                    rw [if_neg hR]
                  have hopt4 : stOptOf ⟨I ++ branchInputsSpec v f stack, R, A,
                      (if s0 ≠ some "cc" then true else J)⟩ = some ((A : Int) - R) := by
                    unfold stOptOf
                    dsimp only
                    rw [if_neg hR]
                  rw [hopt3, hopt4]
                  dsimp only
                  rw [hargs_cons, hAmax]
              · rw [hargs_cons, hAmax]
              · rw [hJ_cons]
                by_cases hs : s0 = some "cc" <;> simp [hs, Bool.or_assoc]


theorem foldl_max_le (l : List Nat) (a L : Nat) (ha : a ≤ L) (h : ∀ x ∈ l, x ≤ L) :
    l.foldl max a ≤ L := by
  induction l generalizing a with
  | nil => exact ha
  | cons x t ih =>
      exact ih (max a x) (max_le ha (h x (List.mem_cons_self _ _)))
        (fun y hy => h y (List.mem_cons_of_mem _ hy))

/-- C2 (amended): for an instruction all of whose declared branches are
variable branches resolving (through operands) to the targets `bts`,
`analyzeControlFlow` enforces the `args - results` consistency only from the
first branch whose target takes at least one argument onward (earlier
targets, including zero-argument ones, never activate the check); absent a
violation it peeks each target's formals into named inputs, applies the
`nobranch` args-vs-rets check (with `maxRets` forced to 0 by any non-"cc"
branch), pops `maxArgs` entries from the real stack and pushes `maxRets`
fresh outputs named out_0…out_k. -/
theorem c2_analyzeControlFlow_amended (insn : Instruction) (operands : VarMap)
    (stack : Stack) (stackInputs : IRInputs) (bts : List BranchTarget) (c : Nat)
    (hg : stack.guard = none)
    (hbr : insn.controlFlow.branches = bts.map btBranch)
    (hop : ∀ b ∈ bts, operands.lookup b.1 = some (.cont b.2.2))
    (hlen : ∀ b ∈ bts, b.2.2.args.length ≤ stack.entries.length) :
    (analyzeControlFlow insn operands stack stackInputs).run c =
      match violAux bts none with
      | some (v, a, r) =>
          .error (.otherErr ("bad branch " ++ v ++ " with " ++ toString a ++
            " args and " ++ toString r)) c
      | none =>
          if insn.controlFlow.nobranch ∧ maxArgsSpec bts ≠ maxRetsSpec bts ∧
              ¬hasJumpsSpec bts then
            .error (.otherErr ("for nobranch, args=" ++ toString (maxArgsSpec bts) ++
              " must be same as rets=" ++ toString (maxRetsSpec bts))) c
          else
            .ok (acfInputsSpec bts stack, outsSpec (maxRetsSpec bts) c,
                 ⟨stack.entries.take (stack.entries.length - maxArgsSpec bts) ++
                   mergedNames (maxRetsSpec bts) c, none⟩) (c + maxRetsSpec bts) := by
  have hAle : maxArgsSpec bts ≤ stack.entries.length := by
    unfold maxArgsSpec btPairs
    rw [List.map_map]
    refine foldl_max_le _ 0 _ (Nat.zero_le _) ?_
    intro x hx
    obtain ⟨b, hb, hbx⟩ := List.mem_map.1 hx
    rw [← hbx]
    exact hlen b hb
  unfold analyzeControlFlow
  rw [hbr]
  rw [CounterM.run_bind]
  rw [acfBranches_run operands stack stackInputs hg bts ⟨[], -1, 0, false⟩ c hop hlen
    (fun _ => rfl)]
  rw [show stOptOf ⟨[], -1, 0, false⟩ = none from rfl]
  cases hv : violAux bts none with
  | some w =>
      obtain ⟨v, a, r⟩ := w
      rfl
  | none =>
      dsimp only
      rw [List.nil_append, Bool.false_or]
      rw [show retsFold ⟨[], -1, 0, false⟩ bts = maxRetsPre bts from rfl]
      rw [show argsFold (AcfState.maxArgs ⟨[], -1, 0, false⟩) bts = maxArgsSpec bts from rfl]
      rw [show (if hasJumpsSpec bts ∨ maxRetsPre bts = -1 then (0 : Nat)
        else (maxRetsPre bts).toNat) = maxRetsSpec bts from rfl]
      by_cases hc : insn.controlFlow.nobranch ∧ maxArgsSpec bts ≠ maxRetsSpec bts ∧
          ¬hasJumpsSpec bts
      · rw [if_pos hc, if_pos hc]
        rw [CounterM.run_throw]
      · rw [if_neg hc, if_neg hc]
        rw [CounterM.run_bind, popN_run stack (maxArgsSpec bts) c hg hAle]
        dsimp only
        rw [CounterM.run_bind,
          pushOuts_run ⟨stack.entries.take (stack.entries.length - maxArgsSpec bts), none⟩
            (maxRetsSpec bts) c rfl]
        dsimp only
        rw [CounterM.run_pure]

/-- C2 counterexample: the branch targets `(0 args, 2 results)` then
`(1 arg, 1 result)` have different `args - results` differences
(`-2` vs `0`), yet `analyzeControlFlow` succeeds: the first target takes no
arguments, so it never activates the consistency check the claim says holds
"across all branch target functions". -/
theorem c2_consistency_skip_counterexample :
    (analyzeControlFlow c2insn c2operands c2stack []).run 0 =
      .ok ([("c2_p0", .ref (.mk "s0" none none))],
           [("out_0", (⟨"var0", none⟩ : IRValueDef))],
           (⟨[⟨"var0", none⟩], none⟩ : Stack)) 1 ∧
    ((0 : Int) - 2 ≠ (1 : Int) - 1) := by
  exact ⟨rfl, by decide⟩

/-- C2 witness: a single branch whose target takes one argument and returns
one result, on a one-entry stack, with `nobranch` declared: the amended
characterization gives the successful run concretely. -/
theorem c2_analyzeControlFlow_amended_witness :
    (analyzeControlFlow c2winsn c2woperands c2stack []).run 0 =
      .ok ([("c_p0", .ref (.mk "s0" none none))],
           [("out_0", (⟨"var0", none⟩ : IRValueDef))],
           (⟨[⟨"var0", none⟩], none⟩ : Stack)) 1 := by
  have h := c2_analyzeControlFlow_amended c2winsn c2woperands c2stack [] c2wbts 0
    rfl rfl
    (by
      intro b hb
      rw [show c2wbts = [("c", some "cc", tgt11)] from rfl] at hb
      rw [List.mem_singleton] at hb
      subst hb
      rfl)
    (by
      intro b hb
      rw [show c2wbts = [("c", some "cc", tgt11)] from rfl] at hb
      rw [List.mem_singleton] at hb
      subst hb
      decide)
  exact h.trans rfl


/-! ## C6 — `inlineConsts` vs its claimed description -/

theorem IROpPrim.withInputs_self (st : IROpPrim) : st.withInputs st.inputs = st := by
  cases st
  rfl

theorem IROpPrim.withInputs_withInputs (st : IROpPrim) (l l' : IRInputs) :
    (st.withInputs l).withInputs l' = st.withInputs l' := by
  cases st
  rfl

theorem IROpPrim.inputs_withInputs (st : IROpPrim) (l : IRInputs) :
    (st.withInputs l).inputs = l := by
  cases st
  rfl

theorem inpSubst_nil (q : String × IRInputArg) : inpSubst [] q = q := by
  obtain ⟨n, a⟩ := q
  cases a <;> rfl

theorem mapStmtWith_nil (st : IROpPrim) : mapStmtWith [] st = st := by
  unfold mapStmtWith
  rw [show inpSubst [] = id from funext inpSubst_nil, List.map_id,
    IROpPrim.withInputs_self]

theorem stmtSites_eq_nameSites (st : IROpPrim) (id : String) (i : Nat) :
    stmtSites st id i = (nameSitesFor st.inputs id).map (fun n => ⟨i, n⟩) := by
  unfold stmtSites nameSitesFor
  induction st.inputs with
  | nil => rfl
  | cons q rest ih =>
      obtain ⟨n, a⟩ := q
      cases a with
      | ref r =>
          by_cases hr : r.id = id
          · rw [List.filterMap_cons, List.filterMap_cons]
            dsimp only
            rw [if_pos hr, if_pos hr, List.map_cons, ih]
          · rw [List.filterMap_cons, List.filterMap_cons]
            dsimp only
            rw [if_neg hr, if_neg hr, ih]
      | inline op =>
          rw [List.filterMap_cons, List.filterMap_cons]
          dsimp only
          exact ih

theorem collectSitesFrom_shift (b : List IROpPrim) (id : String) :
    ∀ (k : Nat), collectSitesFrom b id (k + 1) =
      (collectSitesFrom b id k).map (fun s => ⟨s.stmtIndex + 1, s.inputName⟩) := by
  induction b with
  | nil => intro k; rfl
  | cons st rest ih =>
      intro k
      show stmtSites st id (k + 1) ++ collectSitesFrom rest id (k + 2) = _
      rw [show (collectSitesFrom (st :: rest) id k) =
        stmtSites st id k ++ collectSitesFrom rest id (k + 1) from rfl]
      rw [List.map_append, ih (k + 1)]
      congr 1
      rw [stmtSites_eq_nameSites, stmtSites_eq_nameSites, List.map_map]
      rfl

theorem prodLookup_append_single (ps : List ProducerEntry) (p : ProducerEntry)
    (id : String) :
    prodLookup (ps ++ [p]) id = if p.outId = id then some p else prodLookup ps id := by
  unfold prodLookup
  rw [List.reverse_append]
  by_cases h : p.outId = id
  · rw [if_pos h]
    rw [show ([p].reverse ++ ps.reverse) = p :: ps.reverse from rfl]
    rw [List.find?_cons_of_pos _ (by simpa using h)]
  · rw [if_neg h]
    rw [show ([p].reverse ++ ps.reverse) = p :: ps.reverse from rfl]
    rw [List.find?_cons_of_neg _ (by simpa using h)]

theorem fold_replace_skip (a : IRInputArg) (m : String) (v : IRInputArg) :
    ∀ (L : List String) (l₀ : IRInputs), (∀ n ∈ L, n ≠ m) →
      L.foldl (fun l n => replaceFirstNamed l n a) ((m, v) :: l₀) =
        (m, v) :: L.foldl (fun l n => replaceFirstNamed l n a) l₀ := by
  intro L
  induction L with
  | nil => intro l₀ _; rfl
  | cons n L ih =>
      intro l₀ h
      rw [List.foldl_cons, List.foldl_cons]
      rw [show replaceFirstNamed ((m, v) :: l₀) n a =
        (m, v) :: replaceFirstNamed l₀ n a from by
          unfold replaceFirstNamed
          rw [if_neg (fun hmn => h n (List.mem_cons_self _ _) hmn.symm)]
          cases l₀ with
          | nil => rfl
          | cons q rest =>
              obtain ⟨x, y⟩ := q
              rfl]
      exact ih _ (fun x hx => h x (List.mem_cons_of_mem _ hx))

theorem nameSites_mem (ins : IRInputs) (id n : String)
    (h : n ∈ nameSitesFor ins id) : n ∈ ins.map Prod.fst := by
  unfold nameSitesFor at h
  obtain ⟨q, hq, hsome⟩ := List.mem_filterMap.1 h
  obtain ⟨m, a⟩ := q
  cases a with
  | ref r =>
      dsimp only at hsome
      by_cases hr : r.id = id
      · rw [if_pos hr] at hsome
        cases hsome
        exact List.mem_map_of_mem _ hq
      · rw [if_neg hr] at hsome
        cases hsome
  | inline op => cases hsome

theorem core_subst (p : ProducerEntry) :
    ∀ (ins : IRInputs), (ins.map Prod.fst).Nodup → ∀ (ps₀ : List ProducerEntry),
      (nameSitesFor ins p.outId).foldl
        (fun l n => replaceFirstNamed l n (.inline p.stmt)) (ins.map (inpSubst ps₀)) =
      ins.map (inpSubst (ps₀ ++ [p])) := by
  intro ins
  induction ins with
  | nil => intro _ ps₀; rfl
  | cons q rest ih =>
      intro hnd ps₀
      rw [List.map_cons, List.nodup_cons] at hnd
      obtain ⟨hq, hnd⟩ := hnd
      have hskip : ∀ n ∈ nameSitesFor rest p.outId, n ≠ q.1 := by
        intro n hn he
        exact hq (he ▸ nameSites_mem rest p.outId n hn)
      obtain ⟨n, a⟩ := q
      cases a with
      | ref r =>
          by_cases hr : r.id = p.outId
          · rw [show nameSitesFor ((n, IRInputArg.ref r) :: rest) p.outId =
              n :: nameSitesFor rest p.outId from by
                unfold nameSitesFor
                rw [List.filterMap_cons]
                dsimp only
                rw [if_pos hr]]
            rw [List.map_cons, List.foldl_cons]
            have hhead : replaceFirstNamed
                (inpSubst ps₀ (n, IRInputArg.ref r) :: rest.map (inpSubst ps₀)) n
                (IRInputArg.inline p.stmt) =
                (n, IRInputArg.inline p.stmt) :: rest.map (inpSubst ps₀) := by
              cases hpl : prodLookup ps₀ r.id with
              | some pp =>
                  rw [show inpSubst ps₀ (n, IRInputArg.ref r) = (n, .inline pp.stmt) from by
                    unfold inpSubst
                    dsimp only
                    rw [hpl]]
                  unfold replaceFirstNamed
                  rw [if_pos rfl]
              | none =>
                  rw [show inpSubst ps₀ (n, IRInputArg.ref r) = (n, .ref r) from by
                    unfold inpSubst
                    dsimp only
                    rw [hpl]]
                  unfold replaceFirstNamed
                  rw [if_pos rfl]
            rw [hhead]
            rw [fold_replace_skip _ _ _ _ _ hskip]
            rw [ih hnd ps₀, List.map_cons]
            congr 1
            unfold inpSubst
            dsimp only
            rw [prodLookup_append_single, if_pos hr.symm]
          · rw [show nameSitesFor ((n, IRInputArg.ref r) :: rest) p.outId =
              nameSitesFor rest p.outId from by
                unfold nameSitesFor
                rw [List.filterMap_cons]
                dsimp only
                rw [if_neg hr]]
            rw [List.map_cons]
            cases hpl : prodLookup ps₀ r.id with
            | some pp =>
                rw [show inpSubst ps₀ (n, IRInputArg.ref r) = (n, .inline pp.stmt) from by
                  unfold inpSubst
                  dsimp only
                  rw [hpl]]
                rw [fold_replace_skip _ _ _ _ _ hskip]
                rw [ih hnd ps₀, List.map_cons]
                congr 1
                unfold inpSubst
                dsimp only
                rw [prodLookup_append_single, if_neg (fun h2 => hr h2.symm), hpl]
            | none =>
                rw [show inpSubst ps₀ (n, IRInputArg.ref r) = (n, .ref r) from by
                  unfold inpSubst
                  dsimp only
                  rw [hpl]]
                rw [fold_replace_skip _ _ _ _ _ hskip]
                rw [ih hnd ps₀, List.map_cons]
                congr 1
                unfold inpSubst
                dsimp only
                rw [prodLookup_append_single, if_neg (fun h2 => hr h2.symm), hpl]
      | inline op =>
          rw [show nameSitesFor ((n, IRInputArg.inline op) :: rest) p.outId =
            nameSitesFor rest p.outId from by
              unfold nameSitesFor
              rw [List.filterMap_cons]]
          rw [List.map_cons]
          rw [show inpSubst ps₀ (n, IRInputArg.inline op) = (n, .inline op) from rfl]
          rw [fold_replace_skip _ _ _ _ _ hskip]
          rw [ih hnd ps₀, List.map_cons]
          rfl

theorem fold_applySite_zero (a : IRInputArg) :
    ∀ (names : List String) (y : IROpPrim) (ys : List IROpPrim),
      ((names.map (fun n => (⟨0, n⟩ : UseSite))).foldl
        (fun b s => applySite b s a) (y :: ys)) =
        y.withInputs (names.foldl (fun l n => replaceFirstNamed l n a) y.inputs) :: ys := by
  intro names
  induction names with
  | nil =>
      intro y ys
      rw [List.map_nil, List.foldl_nil, List.foldl_nil, IROpPrim.withInputs_self]
  | cons n names ih =>
      intro y ys
      rw [List.map_cons, List.foldl_cons, List.foldl_cons]
      rw [show applySite (y :: ys) ⟨0, n⟩ a =
        (y.withInputs (replaceFirstNamed y.inputs n a)) :: ys from rfl]
      rw [ih]
      rw [IROpPrim.inputs_withInputs, IROpPrim.withInputs_withInputs]

theorem fold_applySite_shift (a : IRInputArg) :
    ∀ (L : List UseSite) (x : IROpPrim) (xs : List IROpPrim),
      ((L.map (fun s => (⟨s.stmtIndex + 1, s.inputName⟩ : UseSite))).foldl
        (fun b s => applySite b s a) (x :: xs)) =
        x :: L.foldl (fun b s => applySite b s a) xs := by
  intro L
  induction L with
  | nil => intro x xs; rfl
  | cons s L ih =>
      intro x xs
      rw [List.map_cons, List.foldl_cons, List.foldl_cons]
      rw [show applySite (x :: xs) ⟨s.stmtIndex + 1, s.inputName⟩ a =
        x :: applySite xs s a from rfl]
      exact ih _ _

theorem step_fold (p : ProducerEntry) :
    ∀ (body : List IROpPrim), (∀ st ∈ body, (st.inputs.map Prod.fst).Nodup) →
      ∀ (ps₀ : List ProducerEntry),
        (collectSitesFrom body p.outId 0).foldl
          (fun b s => applySite b s (.inline p.stmt)) (body.map (mapStmtWith ps₀)) =
        body.map (mapStmtWith (ps₀ ++ [p])) := by
  intro body
  induction body with
  | nil => intro _ _; rfl
  | cons st rest ih =>
      intro hw ps₀
      rw [show collectSitesFrom (st :: rest) p.outId 0 =
        stmtSites st p.outId 0 ++ collectSitesFrom rest p.outId 1 from rfl]
      rw [show collectSitesFrom rest p.outId 1 =
        (collectSitesFrom rest p.outId 0).map
          (fun s => ⟨s.stmtIndex + 1, s.inputName⟩) from collectSitesFrom_shift rest p.outId 0]
      rw [List.foldl_append, List.map_cons]
      rw [stmtSites_eq_nameSites]
      rw [fold_applySite_zero]
      rw [show (mapStmtWith ps₀ st).inputs = st.inputs.map (inpSubst ps₀) from by
        unfold mapStmtWith
        rw [IROpPrim.inputs_withInputs]]
      rw [core_subst p st.inputs (hw st (List.mem_cons_self _ _)) ps₀]
      rw [show (mapStmtWith ps₀ st).withInputs (st.inputs.map (inpSubst (ps₀ ++ [p]))) =
        mapStmtWith (ps₀ ++ [p]) st from by
          unfold mapStmtWith
          rw [IROpPrim.withInputs_withInputs]]
      rw [fold_applySite_shift]
      rw [ih (fun s hs => hw s (List.mem_cons_of_mem _ hs)) ps₀]
      rw [List.map_cons]

theorem outer_fold (body : List IROpPrim)
    (hw : ∀ st ∈ body, (st.inputs.map Prod.fst).Nodup) :
    ∀ (ps ps₀ : List ProducerEntry),
      ps.foldl (fun b p => (collectSites body p.outId).foldl
          (fun b s => applySite b s (.inline p.stmt)) b) (body.map (mapStmtWith ps₀)) =
        body.map (mapStmtWith (ps₀ ++ ps)) := by
  intro ps
  induction ps with
  | nil => intro ps₀; rw [List.foldl_nil, List.append_nil]
  | cons p ps ih =>
      intro ps₀
      rw [List.foldl_cons]
      rw [show collectSites body p.outId = collectSitesFrom body p.outId 0 from rfl]
      rw [step_fold p body hw ps₀]
      rw [ih (ps₀ ++ [p]), List.append_assoc]
      rfl

theorem foldl_mapSet_nodup :
    ∀ (l acc : List ProducerEntry),
      ((acc ++ l).map ProducerEntry.outId).Nodup →
      l.foldl mapSet acc = acc ++ l := by
  intro l
  induction l with
  | nil => intro acc _; rw [List.foldl_nil, List.append_nil]
  | cons p l ih =>
      intro acc hnd
      rw [List.foldl_cons]
      have hnotin : mapSet acc p = acc ++ [p] := by
        unfold mapSet
        rw [if_neg ?hn]
        case hn =>
          intro hany
          rw [List.any_eq_true] at hany
          obtain ⟨q, hqmem, hqe⟩ := hany
          have hqe' : q.outId = p.outId := by simpa using hqe
          rw [List.map_append, List.nodup_append] at hnd
          exact hnd.2.2 (List.mem_map_of_mem _ hqmem)
            (hqe' ▸ List.mem_map_of_mem ProducerEntry.outId (List.mem_cons_self p l))
      rw [hnotin]
      rw [ih (acc ++ [p]) (by rw [List.append_assoc]; exact hnd)]
      rw [List.append_assoc]
      rfl

/-- `inlineConsts` agrees with its per-statement description whenever input
names are unique within each statement and producer output ids are unique
in the body. -/
theorem inlineConsts_spec_eq (fn : IRFunction)
    (hn : nodupNamesBody fn.body = true)
    (hp : ((constProducers fn.body).map ProducerEntry.outId).Nodup) :
    inlineConsts fn = specInlineConsts fn := by
  have hw : ∀ st ∈ fn.body, (st.inputs.map Prod.fst).Nodup := by
    intro st hst
    have h2 := (List.all_eq_true.1 hn) st hst
    exact of_decide_eq_true h2
  have hmap0 : fn.body.map (mapStmtWith []) = fn.body := by
    rw [show mapStmtWith [] = id from funext mapStmtWith_nil, List.map_id]
  have hpb : producedBy fn.body = constProducers fn.body := by
    unfold producedBy
    rw [foldl_mapSet_nodup (constProducers fn.body) [] (by rw [List.nil_append]; exact hp)]
    rw [List.nil_append]
  have hfold := outer_fold fn.body hw (constProducers fn.body) []
  rw [hmap0, List.nil_append] at hfold
  show fn.withBody (dropIndexed ((producedBy fn.body).foldl _ fn.body) _ 0) = _
  rw [hpb, hfold]
  rfl

/-- C6 counterexample: `c6fn` holds one single-output `const_int` producer
(output id `var0`) with no use sites; `var0` is not in the function's
`result`, yet `inlineConsts` keeps the producer (the claim says it is
deleted whenever its output id is not in `result`). -/
theorem c6_unused_const_counterexample :
    (inlineConsts c6fn).body = c6fn.body ∧
    (constProducers c6fn.body).map ProducerEntry.outId = ["var0"] ∧
    collectSites c6fn.body "var0" = [] ∧
    (c6fn.result.map IRValueRef.id).contains "var0" = false := by
  exact ⟨rfl, rfl, rfl, rfl⟩

/-- C6 (amended): for every body statement of const category with exactly
one output, `inlineConsts` replaces that output at every use site by an
inline expression wrapping the full producer statement (the last producer
of a given id winning), and deletes the producer exactly when it has at
least one use site and its output id does not appear in the function's
`result` — a producer with zero use sites is always kept, even when its
output is not in `result`. Stated as equality with the claim-shaped
description `specInlineConsts`, for bodies with per-statement unique input
names and unique producer output ids (the spec §3 invariants). -/
theorem c6_inlineConsts_amended (fn : IRFunction)
    (hn : nodupNamesBody fn.body = true)
    (hp : ((constProducers fn.body).map ProducerEntry.outId).Nodup) :
    inlineConsts fn = specInlineConsts fn :=
  inlineConsts_spec_eq fn hn hp

/-- C6 witness: on `c7fn` (a const producer feeding an `ADD`), the amended
description applies concretely. -/
theorem c6_inlineConsts_amended_witness :
    nodupNamesBody c7fn.body = true ∧ inlineConsts c7fn = specInlineConsts c7fn :=
  ⟨rfl, c6_inlineConsts_amended c7fn rfl (by decide)⟩


/-! ## C7 — pipeline idempotence: shape lemmas -/

theorem IRFunction.withBody_self (fn : IRFunction) : fn.withBody fn.body = fn := by
  cases fn
  rfl

theorem IROpPrim.operands_withInputs (st : IROpPrim) (l : IRInputs) :
    (st.withInputs l).operands = st.operands := by
  cases st
  rfl

theorem IROpPrim.outputs_withInputs (st : IROpPrim) (l : IRInputs) :
    (st.withInputs l).outputs = st.outputs := by
  cases st
  rfl

theorem IROpPrim.spec_withInputs (st : IROpPrim) (l : IRInputs) :
    (st.withInputs l).spec = st.spec := by
  cases st
  rfl

theorem runStmt_inputs (s : IROpPrim) : (runStmt s).inputs = s.inputs := by
  cases s
  rfl

theorem runStmt_outputs (s : IROpPrim) : (runStmt s).outputs = s.outputs := by
  cases s
  rfl

theorem runStmt_spec (s : IROpPrim) : (runStmt s).spec = s.spec := by
  cases s
  rfl

theorem runStmt_operands (s : IROpPrim) :
    (runStmt s).operands = runOperandsList s.operands := by
  cases s
  rfl

theorem runBody_eq_map (b : List IROpPrim) : runBody b = b.map runStmt := by
  induction b with
  | nil => rfl
  | cons s ss ih => rw [show runBody (s :: ss) = runStmt s :: runBody ss from rfl, ih,
      List.map_cons]

theorem mapStmtWith_operands (ps : List ProducerEntry) (st : IROpPrim) :
    (mapStmtWith ps st).operands = st.operands := by
  unfold mapStmtWith
  rw [IROpPrim.operands_withInputs]

theorem mapStmtWith_outputs (ps : List ProducerEntry) (st : IROpPrim) :
    (mapStmtWith ps st).outputs = st.outputs := by
  unfold mapStmtWith
  rw [IROpPrim.outputs_withInputs]

theorem mapStmtWith_spec (ps : List ProducerEntry) (st : IROpPrim) :
    (mapStmtWith ps st).spec = st.spec := by
  unfold mapStmtWith
  rw [IROpPrim.spec_withInputs]

theorem mapStmtWith_inputs (ps : List ProducerEntry) (st : IROpPrim) :
    (mapStmtWith ps st).inputs = st.inputs.map (inpSubst ps) := by
  unfold mapStmtWith
  rw [IROpPrim.inputs_withInputs]

theorem dropIndexed_mem (st : IROpPrim) :
    ∀ (b : List IROpPrim) (rm : List Nat) (k : Nat), st ∈ dropIndexed b rm k → st ∈ b := by
  intro b
  induction b with
  | nil => intro rm k h; exact absurd h (by simp [dropIndexed])
  | cons x xs ih =>
      intro rm k h
      unfold dropIndexed at h
      by_cases hc : rm.contains k
      · rw [if_pos hc] at h
        exact List.mem_cons_of_mem _ (ih rm (k + 1) h)
      · rw [if_neg hc] at h
        rcases List.mem_cons.1 h with h1 | h2
        · exact h1 ▸ List.mem_cons_self _ _
        · exact List.mem_cons_of_mem _ (ih rm (k + 1) h2)


/-! ## C7 — reference-id and producer bookkeeping -/

theorem refIds_replace_inline (n : String) (x : IROpPrim) :
    ∀ (ins : IRInputs) (id : String),
      id ∈ refIds (replaceFirstNamed ins n (.inline x)) → id ∈ refIds ins := by
  intro ins
  induction ins with
  | nil => intro id h; exact absurd h (by simp [replaceFirstNamed, refIds])
  | cons q rest ih =>
      intro id h
      obtain ⟨m, v⟩ := q
      unfold replaceFirstNamed at h
      by_cases hm : m = n
      · rw [if_pos hm] at h
        rw [show refIds ((m, IRInputArg.inline x) :: rest) = refIds rest from by
          unfold refIds
          rw [List.filterMap_cons]] at h
        cases v with
        | ref r =>
            rw [show refIds ((m, IRInputArg.ref r) :: rest) = r.id :: refIds rest from by
              unfold refIds
              rw [List.filterMap_cons]]
            exact List.mem_cons_of_mem _ h
        | inline op =>
            rw [show refIds ((m, IRInputArg.inline op) :: rest) = refIds rest from by
              unfold refIds
              rw [List.filterMap_cons]]
            exact h
      · rw [if_neg hm] at h
        cases v with
        | ref r =>
            rw [show refIds ((m, IRInputArg.ref r) :: replaceFirstNamed rest n (.inline x)) =
              r.id :: refIds (replaceFirstNamed rest n (.inline x)) from by
                unfold refIds
                rw [List.filterMap_cons]] at h
            rw [show refIds ((m, IRInputArg.ref r) :: rest) = r.id :: refIds rest from by
              unfold refIds
              rw [List.filterMap_cons]]
            rcases List.mem_cons.1 h with h1 | h2
            · exact h1 ▸ List.mem_cons_self _ _
            · exact List.mem_cons_of_mem _ (ih id h2)
        | inline op =>
            rw [show refIds ((m, IRInputArg.inline op) :: replaceFirstNamed rest n (.inline x)) =
              refIds (replaceFirstNamed rest n (.inline x)) from by
                unfold refIds
                rw [List.filterMap_cons]] at h
            rw [show refIds ((m, IRInputArg.inline op) :: rest) = refIds rest from by
              unfold refIds
              rw [List.filterMap_cons]]
            exact ih id h

theorem refIds_map_inpSubst (ps : List ProducerEntry) :
    ∀ (ins : IRInputs) (id : String), id ∈ refIds (ins.map (inpSubst ps)) →
      id ∈ refIds ins ∧ prodLookup ps id = none := by
  intro ins
  induction ins with
  | nil => intro id h; exact absurd h (by simp [refIds])
  | cons q rest ih =>
      intro id h
      obtain ⟨m, v⟩ := q
      rw [List.map_cons] at h
      cases v with
      | ref r =>
          cases hpl : prodLookup ps r.id with
          | some pp =>
              rw [show inpSubst ps (m, IRInputArg.ref r) = (m, .inline pp.stmt) from by
                unfold inpSubst
                dsimp only
                rw [hpl]] at h
              rw [show refIds ((m, IRInputArg.inline pp.stmt) ::
                rest.map (inpSubst ps)) = refIds (rest.map (inpSubst ps)) from by
                  unfold refIds
                  rw [List.filterMap_cons]] at h
              obtain ⟨h1, h2⟩ := ih id h
              refine ⟨?_, h2⟩
              rw [show refIds ((m, IRInputArg.ref r) :: rest) = r.id :: refIds rest from by
                unfold refIds
                rw [List.filterMap_cons]]
              exact List.mem_cons_of_mem _ h1
          | none =>
              rw [show inpSubst ps (m, IRInputArg.ref r) = (m, .ref r) from by
                unfold inpSubst
                dsimp only
                rw [hpl]] at h
              rw [show refIds ((m, IRInputArg.ref r) :: rest.map (inpSubst ps)) =
                r.id :: refIds (rest.map (inpSubst ps)) from by
                  unfold refIds
                  rw [List.filterMap_cons]] at h
              rw [show refIds ((m, IRInputArg.ref r) :: rest) = r.id :: refIds rest from by
                unfold refIds
                rw [List.filterMap_cons]]
              rcases List.mem_cons.1 h with h1 | h2
              · subst h1
                exact ⟨List.mem_cons_self _ _, hpl⟩
              · obtain ⟨h1, h2⟩ := ih id h2
                exact ⟨List.mem_cons_of_mem _ h1, h2⟩
      | inline op =>
          rw [show inpSubst ps (m, IRInputArg.inline op) = (m, .inline op) from rfl] at h
          rw [show refIds ((m, IRInputArg.inline op) :: rest.map (inpSubst ps)) =
            refIds (rest.map (inpSubst ps)) from by
              unfold refIds
              rw [List.filterMap_cons]] at h
          obtain ⟨h1, h2⟩ := ih id h
          refine ⟨?_, h2⟩
          rw [show refIds ((m, IRInputArg.inline op) :: rest) = refIds rest from by
            unfold refIds
            rw [List.filterMap_cons]]
          exact h1

theorem nameSitesFor_nil_of (id : String) :
    ∀ (ins : IRInputs), id ∉ refIds ins → nameSitesFor ins id = [] := by
  intro ins
  induction ins with
  | nil => intro _; rfl
  | cons q rest ih =>
      intro h
      obtain ⟨m, v⟩ := q
      cases v with
      | ref r =>
          rw [show refIds ((m, IRInputArg.ref r) :: rest) = r.id :: refIds rest from by
            unfold refIds
            rw [List.filterMap_cons]] at h
          have hne : r.id ≠ id := fun he => h (he ▸ List.mem_cons_self _ _)
          rw [show nameSitesFor ((m, IRInputArg.ref r) :: rest) id =
            nameSitesFor rest id from by
              unfold nameSitesFor
              rw [List.filterMap_cons]
              dsimp only
              rw [if_neg hne]]
          exact ih (fun hm => h (List.mem_cons_of_mem _ hm))
      | inline op =>
          rw [show refIds ((m, IRInputArg.inline op) :: rest) = refIds rest from by
            unfold refIds
            rw [List.filterMap_cons]] at h
          rw [show nameSitesFor ((m, IRInputArg.inline op) :: rest) id =
            nameSitesFor rest id from by
              unfold nameSitesFor
              rw [List.filterMap_cons]]
          exact ih h

theorem collectSitesFrom_nil_of (id : String) :
    ∀ (b : List IROpPrim) (k : Nat), id ∉ bodyRefIds b →
      collectSitesFrom b id k = [] := by
  intro b
  induction b with
  | nil => intro k _; rfl
  | cons st rest ih =>
      intro k h
      rw [show bodyRefIds (st :: rest) = refIds st.inputs ++ bodyRefIds rest from by
        unfold bodyRefIds
        rw [List.flatMap_cons]] at h
      rw [List.mem_append] at h
      push_neg at h
      rw [show collectSitesFrom (st :: rest) id k =
        stmtSites st id k ++ collectSitesFrom rest id (k + 1) from rfl]
      rw [stmtSites_eq_nameSites, nameSitesFor_nil_of id st.inputs h.1, List.map_nil,
        List.nil_append]
      exact ih (k + 1) h.2

theorem constProducersFrom_mem_stmt :
    ∀ (b : List IROpPrim) (k : Nat) (q : ProducerEntry), q ∈ constProducersFrom b k →
      q.stmt ∈ b ∧ ∃ o, q.stmt.outputs = [o] ∧
        isConstCategory q.stmt.spec.doc.category = true ∧ q.outId = o.2.id := by
  intro b
  induction b with
  | nil => intro k q h; exact absurd h (by simp [constProducersFrom])
  | cons st rest ih =>
      intro k q h
      unfold constProducersFrom at h
      cases hpa : producerAt st k with
      | some p =>
          rw [hpa] at h
          rcases List.mem_cons.1 h with h1 | h2
          · subst h1
            unfold producerAt at hpa
            split at hpa
            · split at hpa
              · injection hpa with he
                subst he
                refine ⟨List.mem_cons_self _ _, ?_⟩
                refine ⟨_, by assumption, by simpa using by assumption, rfl⟩
              · cases hpa
            · cases hpa
          · obtain ⟨hm, ho⟩ := ih (k + 1) q h2
            exact ⟨List.mem_cons_of_mem _ hm, ho⟩
      | none =>
          rw [hpa] at h
          obtain ⟨hm, ho⟩ := ih (k + 1) q h
          exact ⟨List.mem_cons_of_mem _ hm, ho⟩

theorem constProducersFrom_exists :
    ∀ (b : List IROpPrim) (k : Nat) (st : IROpPrim) (o : String × IRValueDef),
      st ∈ b → st.outputs = [o] → isConstCategory st.spec.doc.category = true →
      ∃ q ∈ constProducersFrom b k, q.outId = o.2.id := by
  intro b
  induction b with
  | nil => intro k st o h; exact absurd h (List.not_mem_nil st)
  | cons x xs ih =>
      intro k st o hmem houts hcat
      rcases List.mem_cons.1 hmem with h1 | h2
      · subst h1
        have hpa : producerAt st k = some ⟨o.2.id, k, st⟩ := by
          simp [producerAt, houts, hcat]
        rw [show constProducersFrom (st :: xs) k =
          match producerAt st k with
          | some p => p :: constProducersFrom xs (k + 1)
          | none => constProducersFrom xs (k + 1) from rfl, hpa]
        exact ⟨⟨o.2.id, k, st⟩, List.mem_cons_self _ _, rfl⟩
      · obtain ⟨q, hq, he⟩ := ih (k + 1) st o h2 houts hcat
        unfold constProducersFrom
        cases hpa : producerAt x k with
        | some p => exact ⟨q, List.mem_cons_of_mem _ hq, he⟩
        | none => exact ⟨q, hq, he⟩

theorem prodLookup_isSome_of_mem (ps : List ProducerEntry) (q : ProducerEntry)
    (h : q ∈ ps) : ∃ p, prodLookup ps q.outId = some p := by
  unfold prodLookup
  rw [← Option.isSome_iff_exists]
  rw [List.find?_isSome]
  exact ⟨q, List.mem_reverse.2 h, by simp⟩

theorem producer_outIds_sublist :
    ∀ (b : List IROpPrim) (k : Nat),
      ((constProducersFrom b k).map ProducerEntry.outId).Sublist (bodyOutIds b) := by
  intro b
  induction b with
  | nil => intro k; exact List.Sublist.refl _
  | cons st rest ih =>
      intro k
      rw [show bodyOutIds (st :: rest) =
        st.outputs.map (fun o => o.2.id) ++ bodyOutIds rest from by
          unfold bodyOutIds
          rw [List.flatMap_cons]]
      unfold constProducersFrom
      cases hpa : producerAt st k with
      | some p =>
          unfold producerAt at hpa
          split at hpa
          · split at hpa
            · injection hpa with he
              subst he
              rename_i o houts _
              rw [houts, List.map_cons, List.map_cons, List.map_nil]
              exact List.Sublist.cons₂ _ (ih (k + 1))
            · cases hpa
          · cases hpa
      | none =>
          exact (ih (k + 1)).trans (List.sublist_append_right _ _)

theorem foldl_mapSet_mem :
    ∀ (l acc : List ProducerEntry) (q : ProducerEntry),
      q ∈ l.foldl mapSet acc → q ∈ acc ∨ q ∈ l := by
  intro l
  induction l with
  | nil => intro acc q h; exact Or.inl h
  | cons p l ih =>
      intro acc q h
      rw [List.foldl_cons] at h
      rcases ih (mapSet acc p) q h with h1 | h2
      · unfold mapSet at h1
        by_cases hc : acc.any (fun x => x.outId = p.outId)
        · rw [if_pos hc] at h1
          obtain ⟨x, hx, hxe⟩ := List.mem_map.1 h1
          by_cases hxi : x.outId = p.outId
          · rw [if_pos hxi] at hxe
            exact Or.inr (hxe ▸ List.mem_cons_self _ _)
          · rw [if_neg hxi] at hxe
            exact Or.inl (hxe ▸ hx)
        · rw [if_neg hc] at h1
          rcases List.mem_append.1 h1 with h3 | h4
          · exact Or.inl h3
          · rw [List.mem_singleton] at h4
            exact Or.inr (h4 ▸ List.mem_cons_self _ _)
      · exact Or.inr (List.mem_cons_of_mem _ h2)


/-! ## C7 — trace relation and pass fixpoints -/

theorem mem_bodyRefIds {id : String} {b : List IROpPrim} :
    id ∈ bodyRefIds b ↔ ∃ st ∈ b, id ∈ refIds st.inputs := by
  unfold bodyRefIds
  exact List.mem_flatMap

theorem TrB_refl (b : List IROpPrim) : TrB b b :=
  ⟨fun st h => ⟨st, h, rfl, rfl, rfl⟩, fun _ h => h⟩

theorem TrB_trans {a b c : List IROpPrim} (h1 : TrB a b) (h2 : TrB b c) : TrB a c := by
  constructor
  · intro st' hst'
    obtain ⟨st1, hst1, e1, e2, e3⟩ := h2.1 st' hst'
    obtain ⟨st0, hst0, f1, f2, f3⟩ := h1.1 st1 hst1
    exact ⟨st0, hst0, e1.trans f1, e2.trans f2, e3.trans f3⟩
  · intro id hid
    exact h1.2 id (h2.2 id hid)

theorem specInlineConsts_body_ex (fn : IRFunction) :
    ∃ rm, (specInlineConsts fn).body =
      dropIndexed (fn.body.map (mapStmtWith (constProducers fn.body))) rm 0 := by
  cases fn
  exact ⟨_, rfl⟩

theorem TrB_spec (fn : IRFunction) : TrB fn.body (specInlineConsts fn).body := by
  obtain ⟨rm, hbody⟩ := specInlineConsts_body_ex fn
  constructor
  · intro st' hst'
    rw [hbody] at hst'
    obtain ⟨st, hst, he⟩ := List.mem_map.1 (dropIndexed_mem st' _ _ _ hst')
    exact ⟨st, hst, by rw [← he, mapStmtWith_operands],
      by rw [← he, mapStmtWith_outputs], by rw [← he, mapStmtWith_spec]⟩
  · intro id hid
    rw [hbody] at hid
    obtain ⟨t', ht', hidt⟩ := mem_bodyRefIds.1 hid
    obtain ⟨t, ht, he⟩ := List.mem_map.1 (dropIndexed_mem t' _ _ _ ht')
    rw [← he, mapStmtWith_inputs] at hidt
    exact mem_bodyRefIds.2 ⟨t, ht, (refIds_map_inpSubst _ t.inputs id hidt).1⟩

theorem InvP_specInlineConsts (fn : IRFunction) : InvP (specInlineConsts fn).body := by
  obtain ⟨rm, hbody⟩ := specInlineConsts_body_ex fn
  intro st' hst' o houts hcat hmem
  rw [hbody] at hst' hmem
  obtain ⟨st, hst, he⟩ := List.mem_map.1 (dropIndexed_mem st' _ _ _ hst')
  rw [← he, mapStmtWith_outputs] at houts
  rw [← he, mapStmtWith_spec] at hcat
  obtain ⟨q, hq, hqid⟩ := constProducersFrom_exists fn.body 0 st o hst houts hcat
  obtain ⟨p₀, hp₀⟩ := prodLookup_isSome_of_mem (constProducers fn.body) q hq
  obtain ⟨t', ht', hidt⟩ := mem_bodyRefIds.1 hmem
  obtain ⟨t, ht, het⟩ := List.mem_map.1 (dropIndexed_mem t' _ _ _ ht')
  rw [← het, mapStmtWith_inputs] at hidt
  have hnone := (refIds_map_inpSubst _ t.inputs o.2.id hidt).2
  rw [hqid] at hp₀
  rw [hp₀] at hnone
  cases hnone

theorem InvP_of_TrB {b b' : List IROpPrim} (ht : TrB b b') (hi : InvP b) : InvP b' := by
  intro st' hst' o houts hcat hmem
  obtain ⟨st, hst, _, houts2, hspec⟩ := ht.1 st' hst'
  rw [houts2] at houts
  rw [hspec] at hcat
  exact hi st hst o houts hcat (ht.2 _ hmem)

theorem scanAt_some (b : List IROpPrim) (rids : List String) (i : Nat)
    (b' : List IROpPrim) (h : scanAt b rids i = some b') (h1 : 1 ≤ i) :
    TrB b b' ∧ b'.length + 1 = b.length := by
  unfold scanAt at h
  split at h
  · rename_i prev curr heq1 heq2
    split at h
    · rename_i o houts
      dsimp only at h
      split at h
      · cases h
      · split at h
        · cases h
        · split at h
          · cases h
          · rename_i n hfrn
            injection h with hb'
            subst hb'
            have hcurr : curr ∈ b := List.get?_mem heq2
            have hlt : i < b.length := by
              rcases List.get?_eq_some.1 heq2 with ⟨hl, _⟩
              exact hl
            constructor
            · constructor
              · intro st' hst'
                rcases List.mem_append.1 hst' with hta | htd
                · rcases List.mem_append.1 hta with ht1 | ht2
                  · exact ⟨st', List.mem_of_mem_take ht1, rfl, rfl, rfl⟩
                  · rw [List.mem_singleton] at ht2
                    subst ht2
                    exact ⟨curr, hcurr, IROpPrim.operands_withInputs _ _,
                      IROpPrim.outputs_withInputs _ _, IROpPrim.spec_withInputs _ _⟩
                · exact ⟨st', List.mem_of_mem_drop htd, rfl, rfl, rfl⟩
              · intro id hid
                obtain ⟨st', hst', hidr⟩ := mem_bodyRefIds.1 hid
                rcases List.mem_append.1 hst' with hta | htd
                · rcases List.mem_append.1 hta with ht1 | ht2
                  · exact mem_bodyRefIds.2 ⟨st', List.mem_of_mem_take ht1, hidr⟩
                  · rw [List.mem_singleton] at ht2
                    subst ht2
                    rw [IROpPrim.inputs_withInputs] at hidr
                    exact mem_bodyRefIds.2
                      ⟨curr, hcurr, refIds_replace_inline _ _ curr.inputs id hidr⟩
                · exact mem_bodyRefIds.2 ⟨st', List.mem_of_mem_drop htd, hidr⟩
            · rw [List.length_append, List.length_append, List.length_take,
                List.length_drop, List.length_singleton]
              omega
    · cases h
  · cases h

theorem scanFrom_some (b : List IROpPrim) (rids : List String) :
    ∀ (fuel i : Nat) (b' : List IROpPrim), 1 ≤ i →
      scanFrom b rids i fuel = some b' → TrB b b' ∧ b'.length + 1 = b.length := by
  intro fuel
  induction fuel with
  | zero => intro i b' _ h; cases h
  | succ fuel ih =>
      intro i b' h1 h
      unfold scanFrom at h
      by_cases hi : i < b.length
      · rw [if_pos hi] at h
        cases hsa : scanAt b rids i with
        | some b2 =>
            rw [hsa] at h
            injection h with he
            rw [he] at hsa
            exact scanAt_some b rids i b' hsa h1
        | none =>
            rw [hsa] at h
            exact ih (i + 1) b' (by omega) h
      · rw [if_neg hi] at h
        cases h

theorem scanStep_some (b : List IROpPrim) (rids : List String) (b' : List IROpPrim)
    (h : scanStep b rids = some b') : TrB b b' ∧ b'.length + 1 = b.length :=
  scanFrom_some b rids b.length 1 b' (le_refl 1) h

theorem inlineLoop_TrB (rids : List String) :
    ∀ (fuel : Nat) (b : List IROpPrim), TrB b (inlineLoop fuel b rids) := by
  intro fuel
  induction fuel with
  | zero => intro b; exact TrB_refl b
  | succ fuel ih =>
      intro b
      unfold inlineLoop
      cases hs : scanStep b rids with
      | none => exact TrB_refl b
      | some b' => exact TrB_trans (scanStep_some b rids b' hs).1 (ih b')

theorem inlineLoop_fix (rids : List String) :
    ∀ (fuel : Nat) (b : List IROpPrim), b.length ≤ fuel →
      scanStep (inlineLoop fuel b rids) rids = none := by
  intro fuel
  induction fuel with
  | zero =>
      intro b hb
      have hnil : b = [] := List.length_eq_zero.1 (by omega)
      subst hnil
      rfl
  | succ fuel ih =>
      intro b hb
      unfold inlineLoop
      cases hs : scanStep b rids with
      | none => exact hs
      | some b' =>
          have hlen := (scanStep_some b rids b' hs).2
          exact ih b' (by omega)

theorem inlineLoop_of_none (rids : List String) (b : List IROpPrim)
    (h : scanStep b rids = none) : ∀ (fuel : Nat), inlineLoop fuel b rids = b := by
  intro fuel
  cases fuel with
  | zero => rfl
  | succ fuel =>
      unfold inlineLoop
      rw [h]

theorem runBody_eq_self (b : List IROpPrim)
    (h : ∀ st ∈ b, runOperandsList st.operands = st.operands) : runBody b = b := by
  induction b with
  | nil => rfl
  | cons s ss ih =>
      rw [show runBody (s :: ss) = runStmt s :: runBody ss from rfl]
      rw [ih (fun st hst => h st (List.mem_cons_of_mem _ hst))]
      have h2 := h s (List.mem_cons_self _ _)
      cases s with
      | mk sp mn ins ops outs =>
          rw [show runStmt (IROpPrim.mk sp mn ins ops outs) =
            IROpPrim.mk sp mn ins (runOperandsList ops) outs from rfl]
          rw [show (IROpPrim.mk sp mn ins ops outs).operands = ops from rfl] at h2
          rw [h2]

theorem inlineConsts_noop (a : List IRValueDef) (r : List IRValueRef)
    (t : List (Instruction × List (String × IROperandValue))) (ti : Option String)
    (de dse : Option String) (b : List IROpPrim)
    (h : ∀ p ∈ producedBy b, collectSitesFrom b p.outId 0 = []) :
    inlineConsts (.mk a b r t ti de dse) = .mk a b r t ti de dse := by
  have h2 : ∀ (l : List ProducerEntry) (b0 : List IROpPrim), (∀ p ∈ l, collectSitesFrom b p.outId 0 = []) →
      l.foldl (fun bb p => (collectSites b p.outId).foldl
        (fun bb site => applySite bb site (.inline p.stmt)) bb) b0 = b0 := by
    intro l
    induction l with
    | nil => intro b0 _; rfl
    | cons p l ih =>
        intro b0 hl
        rw [List.foldl_cons]
        rw [show collectSites b p.outId = collectSitesFrom b p.outId 0 from rfl]
        rw [hl p (List.mem_cons_self _ _), List.foldl_nil]
        exact ih b0 (fun q hq => hl q (List.mem_cons_of_mem _ hq))
  have h3 : (producedBy b).filterMap (fun p =>
      if (collectSites b p.outId).length ≠ 0 ∧
          ¬ (r.map IRValueRef.id).contains p.outId then
        some p.stmtIndex
      else none) = [] := by
    rw [List.filterMap_eq_nil_iff]
    intro p hp
    rw [if_neg]
    intro hc
    rw [show collectSites b p.outId = collectSitesFrom b p.outId 0 from rfl, h p hp] at hc
    exact hc.1 rfl
  have h4 : ∀ (bb : List IROpPrim) (k : Nat), dropIndexed bb [] k = bb := by
    intro bb
    induction bb with
    | nil => intro k; rfl
    | cons x xs ih =>
        intro k
        unfold dropIndexed
        rw [if_neg (by simp)]
        rw [ih (k + 1)]
  show (IRFunction.mk a b r t ti de dse).withBody
    (dropIndexed
      ((producedBy b).foldl
        (fun bb p => (collectSites b p.outId).foldl
          (fun bb2 site => applySite bb2 site (.inline p.stmt)) bb) b)
      ((producedBy b).filterMap (fun p =>
        if (collectSites b p.outId).length ≠ 0 ∧
            ¬ (r.map IRValueRef.id).contains p.outId then
          some p.stmtIndex
        else none)) 0) = IRFunction.mk a b r t ti de dse
  rw [h2 (producedBy b) b h, h3, h4]
  rfl


/-! ## C7 — well-formedness bookkeeping and the idempotence pack -/

theorem bool_and_split {a b : Bool} (h : (a && b) = true) : a = true ∧ b = true := by
  rw [Bool.and_eq_true] at h
  exact h

theorem wfBody_mem : ∀ (b : List IROpPrim), wfBody b = true → ∀ s ∈ b, wfStmt s = true := by
  intro b
  induction b with
  | nil => intro _ s hs; cases hs
  | cons x xs ih =>
      intro h s hs
      obtain ⟨h1, h2⟩ := bool_and_split (show (wfStmt x && wfBody xs) = true from h)
      rcases List.mem_cons.1 hs with h3 | h4
      · exact h3 ▸ h1
      · exact ih h2 s h4

theorem wfStmt_ops (s : IROpPrim) (h : wfStmt s = true) : wfOps s.operands = true := by
  cases s with
  | mk sp mn ins ops outs =>
      exact (bool_and_split
        (show (decide ((ins.map Prod.fst).Nodup) && wfOps ops) = true from h)).2

theorem wfStmt_names (s : IROpPrim) (h : wfStmt s = true) :
    decide ((s.inputs.map Prod.fst).Nodup) = true := by
  cases s with
  | mk sp mn ins ops outs =>
      exact (bool_and_split
        (show (decide ((ins.map Prod.fst).Nodup) && wfOps ops) = true from h)).1

theorem nodupNamesBody_runBody : ∀ (b : List IROpPrim), wfBody b = true →
    nodupNamesBody (runBody b) = true := by
  intro b
  induction b with
  | nil => intro _; rfl
  | cons x xs ih =>
      intro h
      obtain ⟨h1, h2⟩ := bool_and_split (show (wfStmt x && wfBody xs) = true from h)
      rw [show runBody (x :: xs) = runStmt x :: runBody xs from rfl]
      unfold nodupNamesBody
      rw [List.all_cons]
      rw [Bool.and_eq_true]
      refine ⟨?_, ?_⟩
      · dsimp only
        rw [runStmt_inputs]
        exact wfStmt_names x h1
      · exact ih h2

theorem bodyOutIds_runBody : ∀ (b : List IROpPrim),
    bodyOutIds (runBody b) = bodyOutIds b := by
  intro b
  induction b with
  | nil => rfl
  | cons x xs ih =>
      rw [show runBody (x :: xs) = runStmt x :: runBody xs from rfl]
      rw [show bodyOutIds (runStmt x :: runBody xs) =
        (runStmt x).outputs.map (fun o => o.2.id) ++ bodyOutIds (runBody xs) from by
          unfold bodyOutIds
          rw [List.flatMap_cons]]
      rw [runStmt_outputs, ih]
      rw [show bodyOutIds (x :: xs) =
        x.outputs.map (fun o => o.2.id) ++ bodyOutIds xs from by
          unfold bodyOutIds
          rw [List.flatMap_cons]]

theorem sizeOf_operands_lt (s : IROpPrim) : sizeOf s.operands < sizeOf s := by
  cases s with
  | mk sp mn ins ops outs =>
      show sizeOf ops < sizeOf (IROpPrim.mk sp mn ins ops outs)
      simp only [IROpPrim.mk.sizeOf_spec]
      omega

mutual

theorem pipelineRun_idem : ∀ (f : IRFunction), wfFun f = true →
    pipelineRun (pipelineRun f) = pipelineRun f
  | .mk args body res at0 tsi de dse, h => by
      obtain ⟨hnod, hwb⟩ := bool_and_split
        (show (decide (bodyOutIds body).Nodup && wfBody body) = true from h)
      have hnd : (bodyOutIds body).Nodup := of_decide_eq_true hnod
      have hnodB0 : nodupNamesBody (runBody body) = true := nodupNamesBody_runBody body hwb
      have hndB0 : ((constProducers (runBody body)).map ProducerEntry.outId).Nodup := by
        refine List.Nodup.sublist (producer_outIds_sublist (runBody body) 0) ?_
        rw [bodyOutIds_runBody]
        exact hnd
      have hic : inlineConsts (.mk args (runBody body) res at0 tsi de dse) =
          specInlineConsts (.mk args (runBody body) res at0 tsi de dse) :=
        inlineConsts_spec_eq _ hnodB0 hndB0
      obtain ⟨B2, hsp⟩ : ∃ B2, specInlineConsts (.mk args (runBody body) res at0 tsi de dse) =
          .mk args B2 res at0 tsi de dse := ⟨_, rfl⟩
      have hB2b : (specInlineConsts
          (.mk args (runBody body) res at0 tsi de dse)).body = B2 := by
        rw [hsp]
        rfl
      have heq1 : pipelineRun (.mk args body res at0 tsi de dse) =
          .mk args (inlineLoop B2.length B2 (res.map IRValueRef.id)) res at0 tsi de dse := by
        show applyPasses (.mk args (runBody body) res at0 tsi de dse) = _
        unfold applyPasses
        rw [hic, hsp]
        rfl
      have htr2 : TrB (runBody body) B2 := by
        have h2 := TrB_spec (.mk args (runBody body) res at0 tsi de dse)
        rw [hB2b] at h2
        exact h2
      have htr3 : TrB B2 (inlineLoop B2.length B2 (res.map IRValueRef.id)) :=
        inlineLoop_TrB _ _ B2
      have htr : TrB (runBody body) (inlineLoop B2.length B2 (res.map IRValueRef.id)) :=
        TrB_trans htr2 htr3
      have hinv : InvP (inlineLoop B2.length B2 (res.map IRValueRef.id)) := by
        refine InvP_of_TrB htr3 ?_
        have h2 := InvP_specInlineConsts (.mk args (runBody body) res at0 tsi de dse)
        rw [hB2b] at h2
        exact h2
      have hfix : scanStep (inlineLoop B2.length B2 (res.map IRValueRef.id))
          (res.map IRValueRef.id) = none :=
        inlineLoop_fix _ B2.length B2 (le_refl _)
      obtain ⟨B1, hB1⟩ : ∃ B1, inlineLoop B2.length B2 (res.map IRValueRef.id) = B1 :=
        ⟨_, rfl⟩
      rw [hB1] at heq1 htr hinv hfix
      have hA : runBody B1 = B1 := by
        apply runBody_eq_self
        intro st' hst'
        obtain ⟨st, hst, hops, _, _⟩ := htr.1 st' hst'
        rw [runBody_eq_map] at hst
        obtain ⟨s, hs, hrs⟩ := List.mem_map.1 hst
        rw [hops, ← hrs, runStmt_operands]
        exact runOps_idem s.operands (wfStmt_ops s (wfBody_mem body hwb s hs))
      have hnoop : inlineConsts (.mk args B1 res at0 tsi de dse) =
          .mk args B1 res at0 tsi de dse := by
        refine inlineConsts_noop args res at0 tsi de dse B1 ?_
        intro p hp
        rcases foldl_mapSet_mem (constProducers B1) [] p
          (show p ∈ (constProducers B1).foldl mapSet [] from hp) with h0 | h0
        · cases h0
        · obtain ⟨hmemst, o, houts, hcat, hid⟩ := constProducersFrom_mem_stmt B1 0 p h0
          rw [hid]
          exact collectSitesFrom_nil_of o.2.id B1 0 (hinv p.stmt hmemst o houts hcat)
      rw [heq1]
      show applyPasses (.mk args (runBody B1) res at0 tsi de dse) = _
      rw [hA]
      unfold applyPasses
      rw [hnoop]
      show IRFunction.mk args (inlineLoop B1.length B1 (res.map IRValueRef.id))
        res at0 tsi de dse = _
      rw [inlineLoop_of_none _ B1 hfix B1.length]
termination_by f => sizeOf f
decreasing_by
  simp_wf
  have hq1 : sizeOf s.operands < sizeOf s := sizeOf_operands_lt s
  have hq2 : sizeOf s < sizeOf body := List.sizeOf_lt_of_mem hs
  omega

theorem runOps_idem : ∀ (ops : List (String × IROperandValue)), wfOps ops = true →
    runOperandsList (runOperandsList ops) = runOperandsList ops
  | [], _ => rfl
  | (n, v) :: rest, h => by
      obtain ⟨hv, hr⟩ := bool_and_split
        (show (wfVal v && wfOps rest) = true from h)
      rw [show runOperandsList ((n, v) :: rest) =
        (n, runOnOperand v) :: runOperandsList rest from rfl]
      rw [show runOperandsList ((n, runOnOperand v) :: runOperandsList rest) =
        (n, runOnOperand (runOnOperand v)) ::
          runOperandsList (runOperandsList rest) from rfl]
      rw [runVal_idem v hv, runOps_idem rest hr]
termination_by ops => sizeOf ops
decreasing_by
  all_goals simp_wf
  all_goals omega

theorem runVal_idem : ∀ (v : IROperandValue), wfVal v = true →
    runOnOperand (runOnOperand v) = runOnOperand v
  | .cont f, h => by
      rw [show runOnOperand (IROperandValue.cont f) = .cont (pipelineRun f) from rfl]
      rw [show runOnOperand (IROperandValue.cont (pipelineRun f)) =
        .cont (pipelineRun (pipelineRun f)) from rfl]
      rw [pipelineRun_idem f (show wfFun f = true from h)]
  | .contMap m, h => by
      rw [show runOnOperand (IROperandValue.contMap m) = .contMap (runContMap m) from rfl]
      rw [show runOnOperand (IROperandValue.contMap (runContMap m)) =
        .contMap (runContMap (runContMap m)) from rfl]
      rw [runMap_idem m (show wfMap m = true from h)]
  | .intV n, _ => rfl
  | .boolV b, _ => rfl
  | .otherV, _ => rfl
termination_by v => sizeOf v
decreasing_by
  all_goals simp_wf

theorem runMap_idem : ∀ (m : List (Int × IRFunction)), wfMap m = true →
    runContMap (runContMap m) = runContMap m
  | [], _ => rfl
  | (k, f) :: rest, h => by
      obtain ⟨hf, hr⟩ := bool_and_split
        (show (wfFun f && wfMap rest) = true from h)
      rw [show runContMap ((k, f) :: rest) = (k, pipelineRun f) :: runContMap rest from rfl]
      rw [show runContMap ((k, pipelineRun f) :: runContMap rest) =
        (k, pipelineRun (pipelineRun f)) :: runContMap (runContMap rest) from rfl]
      rw [pipelineRun_idem f hf, runMap_idem rest hr]
termination_by m => sizeOf m
decreasing_by
  all_goals simp_wf
  all_goals omega

end

/-- C7: running the default pass pipeline is idempotent beyond the second
application — `pipelineRun (pipelineRun f) = pipelineRun f` structurally,
including recursively for functions embedded in `cont` and `cont_map`
operands — for every function satisfying the spec section-3 invariants the
lifter guarantees (unique input names within each statement and unique
defined value ids, recursively inside embedded continuations). -/
theorem c7_pipeline_idempotent (f : IRFunction) (h : wfFun f = true) :
    pipelineRun (pipelineRun f) = pipelineRun f :=
  pipelineRun_idem f h

/-- C7 witness: `c7fn` (a const producer feeding an `ADD` whose output is
returned) is well-formed and the pipeline is idempotent on it. -/
theorem c7_pipeline_idempotent_witness :
    wfFun c7fn = true ∧
      pipelineRun (pipelineRun c7fn) = pipelineRun c7fn :=
  ⟨rfl, c7_pipeline_idempotent c7fn rfl⟩

end TvmDecomp
